import Mathlib

/-!
# Verification of the vixen project-index core (`vixen/project.py`)

This file gives a shallow embedding of the indexing-and-persistence core of
the vixen repository and proves the specified properties about it.

The embedding follows `src/vixen/project.py`.  The collaborating modules
`vixen/media.py` and `vixen/directory.py` are not part of the sources under
verification; the few capabilities the core consumes from them
(construct-a-record-from-a-path, export/import of records, directory state
capture/restore) are modelled from the specification and are marked as such
in their doc comments.

Python dictionaries are modelled as association lists with Python's
semantics: insertion replaces the value in place when the key is present and
appends at the end otherwise; deletion removes the entry and fails
(`KeyError`) when the key is absent.  Filesystem-dependent primitives
(`os.path.realpath`, `os.path.exists`, ...) are abstracted into an explicit
`FS` record that theorems quantify over.
-/

set_option maxHeartbeats 1000000

/-- A Python `dict` with string keys, as an ordered association list. -/
abbrev Dict (V : Type) := List (String × V)

/-- `d[k]` as a total lookup: the value at the first entry whose key is `k`. -/
def Dict.lookup {V : Type} : Dict V → String → Option V
  | [], _ => none
  | e :: es, k => if e.1 = k then some e.2 else Dict.lookup es k

/-- `d[k] = v`: replace in place when the key is present, append otherwise. -/
def Dict.insert {V : Type} : Dict V → String → V → Dict V
  | [], k, v => [(k, v)]
  | e :: es, k, v => if e.1 = k then (k, v) :: es else e :: Dict.insert es k v

/-- `del d[k]`: `none` models the `KeyError` raised on an absent key. -/
def Dict.delete {V : Type} : Dict V → String → Option (Dict V)
  | [], _ => none
  | e :: es, k =>
    if e.1 = k then some es else (Dict.delete es k).map (fun t => e :: t)

/-- `list(d.keys())`. -/
def Dict.keys {V : Type} (d : Dict V) : List String := d.map Prod.fst

/-- `d.update(ps)`: insert the pairs of `ps` in order. -/
def Dict.insAll {V : Type} : Dict V → List (String × V) → Dict V
  | d, [] => d
  | d, e :: es => Dict.insAll (Dict.insert d e.1 e.2) es

/-- `dict(ps)`: build a dict from a list of pairs (later duplicates win). -/
def Dict.ofList {V : Type} (ps : List (String × V)) : Dict V :=
  Dict.insAll [] ps

/-- Sequential `del d[k]` for each key of `ks`, failing on any absent key. -/
def Dict.delAll {V : Type} : Dict V → List String → Option (Dict V)
  | d, [] => some d
  | d, k :: ks =>
    match Dict.delete d k with
    | some t => Dict.delAll t ks
    | none => none

/-- The value of the last pair of `ps` whose key is `k`, if any. -/
def Dict.lastVal {V : Type} (k : String) : List (String × V) → Option V
  | [] => none
  | e :: es =>
    match Dict.lastVal k es with
    | some v => some v
    | none => if e.1 = k then some e.2 else none

@[simp] theorem Dict.keys_nil {V : Type} : Dict.keys ([] : Dict V) = [] := rfl

@[simp] theorem Dict.keys_cons {V : Type} (e : String × V) (es : Dict V) :
    Dict.keys (e :: es) = e.1 :: Dict.keys es := rfl

theorem Dict.keys_append {V : Type} (d d' : Dict V) :
    Dict.keys (d ++ d') = Dict.keys d ++ Dict.keys d' := by
  simp [Dict.keys]

theorem Dict.lookup_eq_none {V : Type} (d : Dict V) (k : String) :
    Dict.lookup d k = none ↔ k ∉ Dict.keys d := by
  induction d with
  | nil => simp [Dict.lookup]
  | cons e es ih =>
    by_cases h : e.1 = k
    · simp [Dict.lookup, h]
    · simp [Dict.lookup, h, ih, Ne.symm h]

theorem Dict.lookup_isSome {V : Type} (d : Dict V) (k : String) :
    (Dict.lookup d k).isSome ↔ k ∈ Dict.keys d := by
  have h := Dict.lookup_eq_none d k
  cases hl : Dict.lookup d k with
  | none => simpa [hl] using h
  | some v =>
    simp only [hl] at h
    simp only [Option.isSome_some, true_iff]
    by_contra hk
    exact Option.noConfusion (h.2 hk)

theorem Dict.lookup_some_mem {V : Type} {d : Dict V} {k : String} {v : V}
    (h : Dict.lookup d k = some v) : (k, v) ∈ d := by
  induction d with
  | nil => simp [Dict.lookup] at h
  | cons e es ih =>
    by_cases he : e.1 = k
    · simp only [Dict.lookup, if_pos he] at h
      cases h
      have : e = (k, e.2) := by
        cases e
        simp_all
      rw [this] at *
      exact List.mem_cons_self _ _
    · simp only [Dict.lookup, if_neg he] at h
      exact List.mem_cons_of_mem _ (ih h)

theorem Dict.lookup_eq_of_mem_nodup {V : Type} {d : Dict V} {k : String} {v : V}
    (hnd : (Dict.keys d).Nodup) (hmem : (k, v) ∈ d) :
    Dict.lookup d k = some v := by
  induction d with
  | nil => simp at hmem
  | cons e es ih =>
    rcases List.mem_cons.1 hmem with h | h
    · subst h
      simp [Dict.lookup]
    · have hk : k ∈ Dict.keys es := List.mem_map_of_mem Prod.fst h
      have he : e.1 ≠ k := by
        intro hek
        exact (List.nodup_cons.1 hnd).1 (hek ▸ hk)
      simp only [Dict.lookup, if_neg he]
      exact ih (List.nodup_cons.1 hnd).2 h

theorem Dict.lookup_insert {V : Type} (d : Dict V) (k j : String) (v : V) :
    Dict.lookup (Dict.insert d k v) j =
      if j = k then some v else Dict.lookup d j := by
  induction d with
  | nil =>
    by_cases h : j = k
    · simp [Dict.insert, Dict.lookup, h]
    · have : k ≠ j := fun h' => h h'.symm
      simp [Dict.insert, Dict.lookup, h, this]
  | cons e es ih =>
    by_cases hek : e.1 = k
    · by_cases hjk : j = k
      · simp [Dict.insert, hek, Dict.lookup, hjk]
      · have hkj : k ≠ j := fun h' => hjk h'.symm
        have hej : ¬ e.1 = j := fun h' => hjk (by rw [← h', hek])
        simp [Dict.insert, hek, Dict.lookup, hjk, hkj, hej]
    · by_cases hej : e.1 = j
      · have hjk : ¬ j = k := fun h' => hek (hej.trans h')
        simp [Dict.insert, hek, Dict.lookup, hej, hjk]
      · simp [Dict.insert, hek, Dict.lookup, hej, ih]

theorem Dict.keys_insert_of_mem {V : Type} {d : Dict V} {k : String} (v : V)
    (h : k ∈ Dict.keys d) : Dict.keys (Dict.insert d k v) = Dict.keys d := by
  induction d with
  | nil => simp at h
  | cons e es ih =>
    by_cases hek : e.1 = k
    · simp [Dict.insert, hek]
    · have : k ∈ Dict.keys es := by
        rcases List.mem_cons.1 h with h' | h'
        · exact absurd h'.symm hek
        · exact h'
      simp [Dict.insert, hek, ih this]

theorem Dict.insert_of_not_mem {V : Type} {d : Dict V} {k : String} (v : V)
    (h : k ∉ Dict.keys d) : Dict.insert d k v = d ++ [(k, v)] := by
  induction d with
  | nil => simp [Dict.insert]
  | cons e es ih =>
    have hek : e.1 ≠ k := fun h' => h (by simp [h'])
    have : k ∉ Dict.keys es := fun h' => h (by simp [h'])
    simp [Dict.insert, hek, ih this]

theorem Dict.nodup_insert {V : Type} {d : Dict V} (k : String) (v : V)
    (hnd : (Dict.keys d).Nodup) : (Dict.keys (Dict.insert d k v)).Nodup := by
  by_cases h : k ∈ Dict.keys d
  · rw [Dict.keys_insert_of_mem v h]
    exact hnd
  · rw [Dict.insert_of_not_mem v h, Dict.keys_append]
    simp [List.nodup_append, hnd, fun h' => h h']

theorem Dict.mem_keys_insert {V : Type} (d : Dict V) (k j : String) (v : V) :
    j ∈ Dict.keys (Dict.insert d k v) ↔ j ∈ Dict.keys d ∨ j = k := by
  by_cases h : k ∈ Dict.keys d
  · rw [Dict.keys_insert_of_mem v h]
    constructor
    · exact fun hj => Or.inl hj
    · rintro (hj | hj)
      · exact hj
      · exact hj ▸ h
  · rw [Dict.insert_of_not_mem v h, Dict.keys_append]
    simp [Dict.keys]

theorem Dict.delete_eq_none {V : Type} (d : Dict V) (k : String) :
    Dict.delete d k = none ↔ k ∉ Dict.keys d := by
  induction d with
  | nil => simp [Dict.delete]
  | cons e es ih =>
    by_cases h : e.1 = k
    · simp [Dict.delete, h]
    · simp only [Dict.delete, if_neg h, Dict.keys_cons, List.mem_cons]
      cases hd : Dict.delete es k with
      | none =>
        simp only [hd, Option.map_none', true_iff]
        rw [hd] at ih
        intro hc
        rcases hc with hc | hc
        · exact h hc.symm
        · exact (ih.1 rfl) hc
      | some t =>
        simp only [hd, Option.map_some']
        constructor
        · intro hc
          exact Option.noConfusion hc
        · intro hc
          rw [hd] at ih
          have : k ∈ Dict.keys es := by
            by_contra hk
            exact Option.noConfusion (ih.2 hk)
          exact absurd (Or.inr this) hc

theorem Dict.delete_isSome_of_mem {V : Type} {d : Dict V} {k : String}
    (h : k ∈ Dict.keys d) : ∃ t, Dict.delete d k = some t := by
  cases hd : Dict.delete d k with
  | none => exact absurd h ((Dict.delete_eq_none d k).1 hd)
  | some t => exact ⟨t, rfl⟩

theorem Dict.keys_delete {V : Type} {d t : Dict V} {k : String}
    (h : Dict.delete d k = some t) : Dict.keys t = (Dict.keys d).erase k := by
  induction d generalizing t with
  | nil => simp [Dict.delete] at h
  | cons e es ih =>
    by_cases he : e.1 = k
    · simp only [Dict.delete, if_pos he] at h
      cases h
      simp [List.erase_cons, he]
    · simp only [Dict.delete, if_neg he] at h
      cases hd : Dict.delete es k with
      | none => rw [hd] at h; exact Option.noConfusion h
      | some t' =>
        rw [hd] at h
        cases h
        simp [List.erase_cons, he, ih hd]

theorem Dict.lookup_delete_ne {V : Type} {d t : Dict V} {k : String}
    (h : Dict.delete d k = some t) (j : String) (hj : j ≠ k) :
    Dict.lookup t j = Dict.lookup d j := by
  induction d generalizing t with
  | nil => simp [Dict.delete] at h
  | cons e es ih =>
    by_cases he : e.1 = k
    · simp only [Dict.delete, if_pos he] at h
      cases h
      have : ¬ e.1 = j := fun h' => hj (by rw [← h', he])
      simp [Dict.lookup, this]
    · simp only [Dict.delete, if_neg he] at h
      cases hd : Dict.delete es k with
      | none => rw [hd] at h; exact Option.noConfusion h
      | some t' =>
        rw [hd] at h
        cases h
        by_cases hej : e.1 = j
        · simp [Dict.lookup, hej]
        · simp [Dict.lookup, hej, ih hd]

theorem Dict.lookup_delete_self {V : Type} {d t : Dict V} {k : String}
    (hnd : (Dict.keys d).Nodup) (h : Dict.delete d k = some t) :
    Dict.lookup t k = none := by
  rw [Dict.lookup_eq_none, Dict.keys_delete h]
  intro hc
  exact ((List.Nodup.mem_erase_iff hnd).1 hc).1 rfl

theorem Dict.nodup_delete {V : Type} {d t : Dict V} {k : String}
    (hnd : (Dict.keys d).Nodup) (h : Dict.delete d k = some t) :
    (Dict.keys t).Nodup := by
  rw [Dict.keys_delete h]
  exact hnd.erase k

theorem Dict.mem_keys_delete {V : Type} {d t : Dict V} {k : String}
    (hnd : (Dict.keys d).Nodup) (h : Dict.delete d k = some t) (j : String) :
    j ∈ Dict.keys t ↔ j ∈ Dict.keys d ∧ j ≠ k := by
  rw [Dict.keys_delete h, List.Nodup.mem_erase_iff hnd]
  exact ⟨fun h' => ⟨h'.2, h'.1⟩, fun h' => ⟨h'.2, h'.1⟩⟩

theorem Dict.delAll_spec {V : Type} (ks : List String) (d : Dict V)
    (hnd : (Dict.keys d).Nodup) (hks : ks.Nodup)
    (hsub : ∀ k ∈ ks, k ∈ Dict.keys d) :
    ∃ t, Dict.delAll d ks = some t ∧ (Dict.keys t).Nodup ∧
      (∀ j, Dict.lookup t j = if j ∈ ks then none else Dict.lookup d j) ∧
      (∀ j, j ∈ Dict.keys t ↔ j ∈ Dict.keys d ∧ j ∉ ks) := by
  induction ks generalizing d with
  | nil =>
    refine ⟨d, rfl, hnd, ?_, ?_⟩
    · intro j
      simp
    · intro j
      simp
  | cons k ks ih =>
    obtain ⟨t1, ht1⟩ := Dict.delete_isSome_of_mem (hsub k (List.mem_cons_self _ _))
    have hnd1 : (Dict.keys t1).Nodup := Dict.nodup_delete hnd ht1
    have hsub1 : ∀ k' ∈ ks, k' ∈ Dict.keys t1 := by
      intro k' hk'
      rw [Dict.mem_keys_delete hnd ht1]
      exact ⟨hsub k' (List.mem_cons_of_mem _ hk'),
        fun h' => (List.nodup_cons.1 hks).1 (h' ▸ hk')⟩
    obtain ⟨t, ht, htnd, hlook, hmem⟩ := ih t1 hnd1 (List.nodup_cons.1 hks).2 hsub1
    refine ⟨t, ?_, htnd, ?_, ?_⟩
    · simp [Dict.delAll, ht1, ht]
    · intro j
      rw [hlook j]
      by_cases hjks : j ∈ ks
      · simp [hjks]
      · by_cases hjk : j = k
        · subst hjk
          simp [hjks, Dict.lookup_delete_self hnd ht1]
        · simp [hjks, hjk, Dict.lookup_delete_ne ht1 j hjk]
    · intro j
      rw [hmem j, Dict.mem_keys_delete hnd ht1]
      constructor
      · rintro ⟨⟨hj1, hj2⟩, hj3⟩
        refine ⟨hj1, ?_⟩
        intro hc
        rcases List.mem_cons.1 hc with hc | hc
        · exact hj2 hc
        · exact hj3 hc
      · rintro ⟨hj1, hj2⟩
        exact ⟨⟨hj1, fun h' => hj2 (h' ▸ List.mem_cons_self _ _)⟩,
          fun h' => hj2 (List.mem_cons_of_mem _ h')⟩

theorem Dict.insAll_append {V : Type} (d : Dict V) (a b : List (String × V)) :
    Dict.insAll d (a ++ b) = Dict.insAll (Dict.insAll d a) b := by
  induction a generalizing d with
  | nil => simp [Dict.insAll]
  | cons e es ih => simp [Dict.insAll, ih]

theorem Dict.lookup_insAll {V : Type} (ps : List (String × V)) (d : Dict V)
    (j : String) :
    Dict.lookup (Dict.insAll d ps) j =
      match Dict.lastVal j ps with
      | some v => some v
      | none => Dict.lookup d j := by
  induction ps generalizing d with
  | nil => simp [Dict.insAll, Dict.lastVal]
  | cons e es ih =>
    rw [Dict.insAll, ih]
    cases hl : Dict.lastVal j es with
    | some v => simp [Dict.lastVal, hl]
    | none =>
      simp only [Dict.lastVal, hl, Dict.lookup_insert]
      by_cases hje : j = e.1
      · simp [hje]
      · have : ¬ e.1 = j := fun h' => hje h'.symm
        simp [hje, this]

theorem Dict.lastVal_eq_none {V : Type} (j : String) (ps : List (String × V)) :
    Dict.lastVal j ps = none ↔ j ∉ ps.map Prod.fst := by
  induction ps with
  | nil => simp [Dict.lastVal]
  | cons e es ih =>
    cases hl : Dict.lastVal j es with
    | some v =>
      simp only [Dict.lastVal, hl, List.map_cons, List.mem_cons]
      constructor
      · intro hc
        exact Option.noConfusion hc
      · intro hc
        rw [hl] at ih
        exact absurd (Or.inr (by
          by_contra hk
          exact Option.noConfusion (ih.2 hk))) hc
    | none =>
      simp only [Dict.lastVal, hl, List.map_cons, List.mem_cons]
      rw [hl] at ih
      by_cases hej : e.1 = j
      · simp [hej]
      · have : ¬ j = e.1 := fun h' => hej h'.symm
        simp [hej, this, ih.1 rfl]

theorem Dict.lastVal_of_mem_nodup {V : Type} {ps : List (String × V)}
    {k : String} {v : V} (hnd : (ps.map Prod.fst).Nodup) (hmem : (k, v) ∈ ps) :
    Dict.lastVal k ps = some v := by
  induction ps with
  | nil => simp at hmem
  | cons e es ih =>
    rcases List.mem_cons.1 hmem with h | h
    · have hk : e.1 = k := by rw [← h]
      have hv : e.2 = v := by rw [← h]
      have hnd' : (e.1 :: es.map Prod.fst).Nodup := by simpa using hnd
      have hlv : Dict.lastVal k es = none := by
        rw [Dict.lastVal_eq_none]
        intro hc
        exact (List.nodup_cons.1 hnd').1 (by rw [hk]; exact hc)
      rw [Dict.lastVal, hlv, if_pos hk, hv]
    · have hnd' : (e.1 :: es.map Prod.fst).Nodup := by simpa using hnd
      rw [Dict.lastVal, ih (List.nodup_cons.1 hnd').2 h]

theorem Dict.mem_keys_insAll {V : Type} (ps : List (String × V)) (d : Dict V)
    (j : String) :
    j ∈ Dict.keys (Dict.insAll d ps) ↔ j ∈ Dict.keys d ∨ j ∈ ps.map Prod.fst := by
  induction ps generalizing d with
  | nil => simp [Dict.insAll]
  | cons e es ih =>
    rw [Dict.insAll, ih, Dict.mem_keys_insert]
    simp only [List.map_cons, List.mem_cons]
    tauto

theorem Dict.nodup_insAll {V : Type} (ps : List (String × V)) {d : Dict V}
    (hnd : (Dict.keys d).Nodup) : (Dict.keys (Dict.insAll d ps)).Nodup := by
  induction ps generalizing d with
  | nil => exact hnd
  | cons e es ih => exact ih (Dict.nodup_insert e.1 e.2 hnd)

theorem Dict.insAll_fresh {V : Type} {ps : List (String × V)} {d : Dict V}
    (hnd : (ps.map Prod.fst).Nodup) (hfresh : ∀ e ∈ ps, e.1 ∉ Dict.keys d) :
    Dict.insAll d ps = d ++ ps := by
  induction ps generalizing d with
  | nil => simp [Dict.insAll]
  | cons e es ih =>
    rw [Dict.insAll, Dict.insert_of_not_mem e.2 (hfresh e (List.mem_cons_self _ _))]
    rw [ih (List.nodup_cons.1 hnd).2]
    · simp
    · intro e' he'
      rw [Dict.keys_append]
      simp only [List.mem_append]
      rintro (hc | hc)
      · exact hfresh e' (List.mem_cons_of_mem _ he') hc
      · simp only [Dict.keys, List.map_cons, List.map_nil, List.mem_singleton] at hc
        exact (List.nodup_cons.1 hnd).1 (hc ▸ List.mem_map_of_mem Prod.fst he')

theorem Dict.ofList_eq_self {V : Type} {ps : List (String × V)}
    (hnd : (ps.map Prod.fst).Nodup) : Dict.ofList ps = ps := by
  rw [Dict.ofList, Dict.insAll_fresh hnd (by simp [Dict.keys])]
  simp

theorem Dict.keys_ofList_nodup {V : Type} (ps : List (String × V)) :
    (Dict.keys (Dict.ofList ps)).Nodup :=
  Dict.nodup_insAll ps (by simp [Dict.keys])

theorem Dict.mem_keys_ofList {V : Type} (ps : List (String × V)) (j : String) :
    j ∈ Dict.keys (Dict.ofList ps) ↔ j ∈ ps.map Prod.fst := by
  rw [Dict.ofList, Dict.mem_keys_insAll]
  simp [Dict.keys]

theorem Dict.ofList_eq_nil_iff {V : Type} (ps : List (String × V)) :
    Dict.ofList ps = [] ↔ ps = [] := by
  cases ps with
  | nil => simp [Dict.ofList, Dict.insAll]
  | cons e es =>
    simp only [iff_false, reduceCtorEq]
    intro hc
    have := (Dict.mem_keys_ofList (e :: es) e.1).2 (by simp)
    rw [hc] at this
    simp [Dict.keys] at this

theorem Dict.lookup_append {V : Type} (a b : Dict V) (j : String) :
    Dict.lookup (a ++ b) j =
      match Dict.lookup a j with
      | some v => some v
      | none => Dict.lookup b j := by
  induction a with
  | nil => simp [Dict.lookup]
  | cons e es ih =>
    by_cases he : e.1 = j
    · simp [Dict.lookup, he]
    · simp [Dict.lookup, he, ih]

theorem Dict.lookup_map_value {V W : Type} (f : V → W) (d : Dict V) (j : String) :
    Dict.lookup (d.map (fun e => (e.1, f e.2))) j = (Dict.lookup d j).map f := by
  induction d with
  | nil => simp [Dict.lookup]
  | cons e es ih =>
    by_cases he : e.1 = j
    · simp [Dict.lookup, he]
    · simp [Dict.lookup, he, ih]

theorem Dict.lookup_map_list {α V : Type} (nm : α → String) (g : α → V)
    (l : List α) (j : String) :
    Dict.lookup (l.map (fun t => (nm t, g t))) j =
      (l.find? (fun t => nm t = j)).map g := by
  induction l with
  | nil => simp [Dict.lookup]
  | cons t ts ih =>
    by_cases h : nm t = j
    · simp [Dict.lookup, h, List.find?]
    · simp only [List.map_cons, Dict.lookup, if_neg h, ih, List.find?]
      simp [h]

/-! ## Tag schema (`TagInfo` in `project.py`) -/

/-- The four tag value types of `TagInfo.type` (`Enum("string", "int", "float", "bool")`). -/
inductive TagType : Type
  | string
  | int
  | float
  | bool
deriving DecidableEq

/-- A tag value.  Python floats are carried opaquely (only the literal `0.0`
default ever arises in the core), modelled by rationals. -/
inductive TagValue : Type
  | str (s : String)
  | int (i : Int)
  | float (q : ℚ)
  | bool (b : Bool)
deriving DecidableEq

/-- `TagInfo._default_default`: the map `{"string": "", "int": 0, "float": 0.0, "bool": False}`. -/
def TagType.defaultValue : TagType → TagValue
  | .string => .str ""
  | .int => .int 0
  | .float => .float 0
  | .bool => .bool false

/-- `TagInfo`: one named, typed schema entry with a default value. -/
structure TagInfo where
  name : String
  type : TagType
  default : TagValue
deriving DecidableEq

/-- `TagInfo(name=n, type=t)`: construction without an explicit default,
so the default is derived from the type by `_default_default`. -/
def TagInfo.of (name : String) (type : TagType) : TagInfo :=
  ⟨name, type, type.defaultValue⟩

/-- The names of a schema's entries, in schema order. -/
def tagNames (ts : List TagInfo) : List String := ts.map TagInfo.name

/-! ## Media records and directory tree (external collaborators) -/

/-- Modelled from the spec: `vixen/media.py` is not under `src/`.  A
MediaRecord is opaque per-file metadata with a mutable tag mapping keyed by
tag name; the core only reads and writes `tags` and asks the record to
construct/export itself. -/
structure Media where
  path : String
  tags : Dict TagValue
deriving DecidableEq

/-- Modelled from the spec: the external "construct from path" capability
(`Media.from_path`); it yields a record for the file whose tag mapping the
core then seeds. -/
def Media.from_path (path : String) : Media :=
  { path := path, tags := [] }

/-- Modelled from the spec: the structured value `Media.to_dict()` exports;
`Media(**kw)` reconstructs an equal record from it (round-trip requirement of
the persistence format). -/
structure MediaDict where
  path : String
  tags : Dict TagValue
deriving DecidableEq

/-- Modelled from the spec: `m.to_dict()`, the export-to-dict capability. -/
def Media.to_dict (m : Media) : MediaDict :=
  { path := m.path, tags := m.tags }

/-- Modelled from the spec: `Media(**kw)`, the construct-from-export capability. -/
def Media.ofDict (d : MediaDict) : Media :=
  { path := d.path, tags := d.tags }

/-- Modelled from the spec: a `FileEntry` of `vixen/directory.py` — path,
name, root-relative path and the mutable association to a MediaRecord set by
`Project.scan` (initially unset). -/
structure FileEntry where
  path : String
  name : String
  relpath : String
  media : Option Media
deriving DecidableEq

/-- Modelled from the spec: a `Directory` node of `vixen/directory.py` with
its cached, fully-populated children (`files` sorted and filtered by
`extensions`, `directories` sorted).  The scan claims only traverse the
cached tree, so the node is modelled in its populated state. -/
inductive Directory : Type
  | node (path : String) (name : String) (relpath : String)
      (extensions : List String) (files : List FileEntry)
      (directories : List Directory)

/-- The filesystem path of a directory node. -/
def Directory.path : Directory → String
  | .node p _ _ _ _ _ => p

/-- The extension filter of a directory node. -/
def Directory.extensions : Directory → List String
  | .node _ _ _ e _ _ => e

mutual

/-- All file entries reachable from a node, in depth-first walk order
(files of a node first, then its subdirectories in order). -/
def Directory.allFiles : Directory → List FileEntry
  | .node _ _ _ _ fls ds => fls ++ Directory.allFilesList ds

/-- `Directory.allFiles` concatenated over a list of sibling directories. -/
def Directory.allFilesList : List Directory → List FileEntry
  | [] => []
  | d :: ds => Directory.allFiles d ++ Directory.allFilesList ds

end

/-- Modelled from the spec: `Directory.__getstate__` — the state-capture
value carries the entire cached subtree, so it is the (populated) tree
itself. -/
def Directory.getstate (d : Directory) : Directory := d

/-- Modelled from the spec: `Directory.__setstate__` — reconstructs an
equivalent populated node from a state capture with zero filesystem
access. -/
def Directory.setstate (st : Directory) : Directory := st

/-- Modelled from the spec: a processor descriptor is an opaque exported
value the codec passes through unchanged (`processor.dump`/`processor.load`
are inverse on it). -/
structure ProcDesc where
  data : String
deriving DecidableEq

/-- Modelled from the spec: `processor.dump`, an opaque pass-through. -/
def processorDump (p : ProcDesc) : ProcDesc := p

/-- Modelled from the spec: `processor.load`, an opaque pass-through. -/
def processorLoad (p : ProcDesc) : ProcDesc := p

/-! ## The persisted document and the abstract filesystem -/

/-- The persisted JSON document of `save_as`.  Every field is optional
because `load` validates presence (`data['tags']`, `data['media']` raise
`KeyError`; `data.get(...)` falls back to a default). -/
structure SaveDoc where
  version : Option Nat
  path : Option String
  name : Option String
  description : Option String
  tags : Option (List (String × TagType))
  media : Option (List (String × MediaDict))
  root : Option Directory
  processors : Option (List ProcDesc)

/-- The filesystem-dependent primitives used by `project.py`, abstracted so
theorems can quantify over the filesystem state.  `normPath` is
`abspath(expanduser(·))`; `build` is `Directory(path=..., extensions=...)`
in its lazily populated state; `readDoc` is `json.load` of the file at a
path; `savedTime` is `get_file_saved_time` (the ctime string). -/
structure FS where
  realpath : String → String
  normPath : String → String
  pathExists : String → Bool
  savedTime : String → String
  build : String → List String → Directory
  readDoc : String → SaveDoc
  projectDir : String

/-! ## The Project aggregate -/

/-- `Project`: the project-level aggregator (name, description, root path,
owned directory tree, tag schema, relpath-to-record mapping, extension
filter, processors, persistence bookkeeping). -/
structure Project where
  name : String
  description : String
  path : String
  root : Option Directory
  tags : List TagInfo
  media : Dict Media
  extensions : List String
  processors : List ProcDesc
  number_of_files : Nat
  save_file : String
  last_save_time : String

/-- `Project._tags_default`: the schema of a freshly constructed project. -/
def Project.tags_default : List TagInfo :=
  [TagInfo.of "completed" TagType.bool]

/-- A freshly constructed `Project()` with every trait at its default:
empty strings, no root, the default schema, empty media mapping, and an
empty `save_file` (the derived name is empty because `name` is empty). -/
def Project.new : Project :=
  { name := "", description := "", path := "", root := none,
    tags := Project.tags_default, media := [], extensions := [],
    processors := [], number_of_files := 0, save_file := "",
    last_save_time := "" }

/-! ## Tag schema migration (`Project.add_tags` / `Project.update_tags`) -/

/-- The `tag_info` dict of `update_tags`:
`dict((tag.name, tag.type) for tag in old_tags)`. -/
def tagInfoDict (old_tags : List TagInfo) : Dict TagType :=
  Dict.ofList (old_tags.map (fun t => (t.name, t.type)))

/-- The `added` list of `update_tags`: new entries whose name is not in the
old schema, together with entries whose name persists but whose type
changed, in `new_tags` order (one pass over `new_tags`). -/
def addedTags (old_tags new_tags : List TagInfo) : List TagInfo :=
  new_tags.filter (fun t =>
    match Dict.lookup (tagInfoDict old_tags) t.name with
    | none => true
    | some ty => decide (ty ≠ t.type))

/-- The `removed` list of `update_tags`: type-changed entries collected
during the pass over `new_tags`, followed by old entries whose name is
absent from the new schema. -/
def removedTags (old_tags new_tags : List TagInfo) : List TagInfo :=
  (new_tags.filter (fun t =>
    match Dict.lookup (tagInfoDict old_tags) t.name with
    | none => false
    | some ty => decide (ty ≠ t.type))) ++
  (old_tags.filter (fun t => decide (t.name ∉ tagNames new_tags)))

/-- The body of the per-record loop of `update_tags`: `del m.tags[tag.name]`
for every removed entry, then `m.tags[tag.name] = tag.default` for every
added entry.  `none` models the `KeyError` of a deletion on an absent key. -/
def Media.applyTagChange (removed added : List TagInfo) (m : Media) :
    Option Media :=
  match Dict.delAll m.tags (removed.map TagInfo.name) with
  | some t =>
      some { m with
        tags := Dict.insAll t (added.map (fun a => (a.name, a.default))) }
  | none => none

/-- The `for m in self.media.values()` loop of `update_tags`, over every
record of the media mapping (keys unchanged, values migrated in place). -/
def migrateMedia (removed added : List TagInfo) : Dict Media →
    Option (Dict Media)
  | [] => some []
  | e :: es =>
    match Media.applyTagChange removed added e.2,
        migrateMedia removed added es with
    | some m', some es' => some ((e.1, m') :: es')
    | _, _ => none

/-- `Project.update_tags(new_tags)`: compute `removed` and `added` relative
to the current schema, replace `tags` wholesale by `new_tags`, and migrate
the tag mapping of every record. -/
def Project.update_tags (p : Project) (new_tags : List TagInfo) :
    Option Project :=
  match migrateMedia (removedTags p.tags new_tags) (addedTags p.tags new_tags)
      p.media with
  | some media' => some { p with tags := new_tags, media := media' }
  | none => none

/-- `Project.add_tags(tags)`: sugar for `update_tags(current + tags)`. -/
def Project.add_tags (p : Project) (tags : List TagInfo) : Option Project :=
  p.update_tags (p.tags ++ tags)

/-! ## Scanning (`Project.scan`) -/

/-- `default_tags` in `scan`: `dict((ti.name, ti.default) for ti in self.tags)`. -/
def defaultTagsDict (tags : List TagInfo) : Dict TagValue :=
  Dict.ofList (tags.map (fun ti => (ti.name, ti.default)))

/-- `Project._create_media(f, default_tags)`: construct a record from the
file's path and seed its tag mapping with a copy of the defaults. -/
def Project._create_media (f : FileEntry) (default_tags : Dict TagValue) :
    Media :=
  { Media.from_path f.path with tags := default_tags }

/-- The `for f in dir.files` loop of `_scan`: look each file up in the
pre-walk `media` mapping, create a record on a miss (accumulating it in
`new_media`), and link the file entry to the found-or-created record. -/
def scanFiles (m0 : Dict Media) (dt : Dict TagValue) :
    List FileEntry → Dict Media → List FileEntry × Dict Media
  | [], nm => ([], nm)
  | f :: fs, nm =>
    match Dict.lookup m0 f.relpath with
    | some m =>
      let r := scanFiles m0 dt fs nm
      ({ f with media := some m } :: r.1, r.2)
    | none =>
      let m := Project._create_media f dt
      let r := scanFiles m0 dt fs (Dict.insert nm f.relpath m)
      ({ f with media := some m } :: r.1, r.2)

mutual

/-- The recursive `_scan(dir)` of `Project.scan` (with `refresh=False`):
process the files of the node, then descend into its subdirectories,
threading the accumulated `new_media`. -/
def scanDir (m0 : Dict Media) (dt : Dict TagValue) :
    Directory → Dict Media → Directory × Dict Media
  | .node p n r ex fls ds, nm =>
    let rf := scanFiles m0 dt fls nm
    let rd := scanDirs m0 dt ds rf.2
    (.node p n r ex rf.1 rd.1, rd.2)

/-- `_scan` over the `for d in dir.directories` loop. -/
def scanDirs (m0 : Dict Media) (dt : Dict TagValue) :
    List Directory → Dict Media → List Directory × Dict Media
  | [], nm => ([], nm)
  | d :: ds, nm =>
    let r1 := scanDir m0 dt d nm
    let r2 := scanDirs m0 dt ds r1.2
    (r1.1 :: r2.1, r2.2)

end

/-- `Project._setup_root`: keep the existing root when its real path matches
the project path's real path, otherwise build a fresh `Directory` for the
path with the current extension filter. -/
def Project.setupRoot (fs : FS) (p : Project) : Directory :=
  let path := fs.normPath p.path
  match p.root with
  | some root =>
    if fs.realpath root.path ≠ fs.realpath path then fs.build path p.extensions
    else root
  | none => fs.build path p.extensions

/-- `Project.scan()` (with `refresh=False`), additionally returning the list
of successive values assigned to the `media` trait during the call (the
assignment log used to state the bulk-update claim).  The walk accumulates
new records in `new_media`; only if at least one was created is `media`
replaced, once, by `dict(media)` updated with `new_media`. -/
def Project.scanWithLog (fs : FS) (p : Project) :
    Project × List (Dict Media) :=
  let root := p.setupRoot fs
  let dt := defaultTagsDict p.tags
  let r := scanDir p.media dt root []
  if r.2.length > 0 then
    let media_copy := Dict.insAll p.media r.2
    let p' := { p with root := some r.1, media := media_copy,
                       number_of_files := media_copy.length }
    (p', [media_copy])
  else
    ({ p with root := some r.1 }, [])

/-- `Project.scan()` (with `refresh=False`): the resulting project state. -/
def Project.scan (fs : FS) (p : Project) : Project :=
  (p.scanWithLog fs).1

/-- The `new_media` accumulated by the walk of `Project.scan` — the records
created for files whose relpath was absent from `media` before the walk. -/
def Project.scanNewMedia (fs : FS) (p : Project) : Dict Media :=
  (scanDir p.media (defaultTagsDict p.tags) (p.setupRoot fs) []).2

/-! ## Persistence (`Project.save_as` / `Project.save` / `Project.load`) -/

/-- `Project.save_as`: the document written to the destination — version 1,
path, name, description, `(name, type)` pairs for the schema (defaults are
not persisted), `(relpath, export)` pairs for the media mapping, the root's
state capture and the exported processors.  `none` models the attribute
error raised when `root` is unset. -/
def Project.save_as (p : Project) : Option SaveDoc :=
  p.root.map (fun r =>
    { version := some 1, path := some p.path, name := some p.name,
      description := some p.description,
      tags := some (p.tags.map (fun t => (t.name, t.type))),
      media := some (p.media.map (fun e => (e.1, e.2.to_dict))),
      root := some (Directory.getstate r),
      processors := some (p.processors.map processorDump) })

/-- `Project.save()`: require a non-empty `save_file`, delegate to `save_as`
on it and update `last_save_time` from the destination; raise
`IOError("No valid save file set.")` otherwise.  The second component lists
the destinations written to, each with the document written there (`none`
marks a destination opened for writing but left without a complete
document). -/
def Project.save (fs : FS) (p : Project) :
    Except String Project × List (String × Option SaveDoc) :=
  if p.save_file.length > 0 then
    match p.save_as with
    | some doc =>
      (.ok { p with last_save_time := fs.savedTime p.save_file },
       [(p.save_file, some doc)])
    | none =>
      (.error "AttributeError: root is not set", [(p.save_file, none)])
  else
    (.error "No valid save file set.", [])

/-- The body of `Project.load` once a document has been read: the sequence
of trait assignments of the source, in source order, stopping (with the
partially updated project and `false`) at the first missing required field —
`path` (assigning `data.get('path') = None` to the `Str` trait fails),
`tags` and `media` (`KeyError`), and the root state (`__setstate__(None)`).
The trailing `scan()` re-links file entries to records. -/
def Project.loadDoc (fs : FS) (p : Project) (doc : SaveDoc) :
    Project × Bool :=
  let p1 := { p with name := doc.name.getD "",
                     description := doc.description.getD "" }
  match doc.path with
  | none => (p1, false)
  | some pathv =>
    let p2 := { p1 with path := pathv }
    match doc.tags with
    | none => (p2, false)
    | some tagPairs =>
      let p3 := { p2 with
        tags := tagPairs.map (fun (x : String × TagType) => TagInfo.of x.1 x.2) }
      let p4 := { p3 with
        processors := (doc.processors.getD []).map processorLoad }
      match doc.media with
      | none => (p4, false)
      | some mediaPairs =>
        let p5 := { p4 with
          media := Dict.ofList (mediaPairs.map (fun e => (e.1, Media.ofDict e.2))) }
        match doc.root with
        | none => (p5, false)
        | some rootState =>
          let root := Directory.setstate rootState
          let p6 := { p5 with extensions := root.extensions,
                              root := some root,
                              number_of_files := p5.media.length }
          ((p6.scan fs), true)

/-- `Project.load(fp)`: with no source, fall back to `save_file` — a silent
no-op when no file exists there; otherwise read and apply the document. -/
def Project.load (fs : FS) (p : Project) (src : Option SaveDoc) :
    Project × Bool :=
  match src with
  | none =>
    if fs.pathExists p.save_file then p.loadDoc fs (fs.readDoc p.save_file)
    else (p, true)
  | some doc => p.loadDoc fs doc

/-! ## Save-file naming policy (`sanitize_name`, `_save_file_default`,
`_name_changed`) -/

/-- ASCII whitespace as matched by the regex class `\s`. -/
def isSpaceChar (c : Char) : Bool :=
  c = ' ' ∨ c = '\t' ∨ c = '\n' ∨ c = '\r' ∨ c = '\x0b' ∨ c = '\x0c'

/-- A word character as matched by the regex class `\w`
(letters, digits and the underscore). -/
def isWordChar (c : Char) : Bool :=
  c.isAlpha ∨ c.isDigit ∨ c = '_'

/-- `re.sub(r'\s+', '_', s)`: replace every maximal whitespace run by one
underscore. -/
def collapseWhitespace : List Char → List Char
  | [] => []
  | [c] => if isSpaceChar c then ['_'] else [c]
  | c1 :: c2 :: cs =>
    if isSpaceChar c1 ∧ isSpaceChar c2 then collapseWhitespace (c2 :: cs)
    else (if isSpaceChar c1 then '_' else c1) :: collapseWhitespace (c2 :: cs)

/-- `sanitize_name`: lower-case (character-wise, as `str.lower` does),
collapse whitespace runs to underscores, strip the remaining non-word
characters. -/
def sanitize_name (name : String) : String :=
  String.mk ((collapseWhitespace (name.data.map Char.toLower)).filter
    isWordChar)

/-- `posixpath.join(a, b)` for a single relative-or-absolute tail `b`. -/
def pathJoin (a b : String) : String :=
  if b.data.head? = some '/' then b
  else if a.data = [] ∨ a.data.getLast? = some '/' then ⟨a.data ++ b.data⟩
  else ⟨a.data ++ '/' :: b.data⟩

/-- `posixpath.basename(p)`: everything after the last slash. -/
def basename (p : String) : String :=
  String.mk (p.data.reverse.takeWhile (fun c => c ≠ '/')).reverse

/-- Helper of `dirname` on the reversed head (everything from the last
slash back to the front): empty when there is no slash; kept verbatim when
all slashes; otherwise with the leading (original: trailing) slashes
stripped. -/
def dirnameAux (rest : List Char) : String :=
  if rest.isEmpty then ""
  else if rest.all (fun c => c = '/') then String.mk rest.reverse
  else String.mk (rest.dropWhile (fun c => c = '/')).reverse

/-- `posixpath.dirname(p)`: everything before the last slash, with trailing
slashes stripped unless the result consists only of slashes. -/
def dirname (p : String) : String :=
  dirnameAux (p.data.reverse.dropWhile (fun c => c ≠ '/'))

/-- Helper of `splitextFilename` on the reversed character list: collect the
extension up to the last dot of the original string and check the
leading-dot condition. -/
def splitextRev : List Char → Option (List Char × List Char)
  | [] => none
  | c :: rest =>
    if c = '.' then
      if rest.any (fun c' => c' ≠ '.') then some ([c], rest) else none
    else
      match splitextRev rest with
      | some pr => some (c :: pr.1, pr.2)
      | none => none

/-- `posixpath.splitext` on a bare filename: split at the last dot, unless
every character before that dot is itself a dot (leading-dot rule). -/
def splitextFilename (s : String) : String × String :=
  match splitextRev s.data.reverse with
  | some pr => (String.mk pr.2.reverse, String.mk pr.1.reverse)
  | none => (s, "")

/-- `get_non_existing_filename`: append `_a` before the extension while the
name is taken. -/
def get_non_existing_filename (fs : FS) (fname : String) : String :=
  if fs.pathExists fname then
    let be := splitextFilename (basename fname)
    pathJoin (dirname fname) (be.1 ++ "_a" ++ be.2)
  else fname

/-- `Project._save_file_default`: derive the save file from the sanitized
project name inside the per-user catalog directory (`~/.vixen`), avoiding an
existing filename; empty when the name is empty. -/
def Project.save_file_default (fs : FS) (p : Project) : String :=
  if p.name.length > 0 then
    get_non_existing_filename fs
      (pathJoin fs.projectDir (sanitize_name p.name ++ ".vxn"))
  else ""

/-- `Project._name_changed`: the handler run when `name` is assigned.  For a
non-empty new name, recompute the save path from the sanitized name in the
current save-file's directory; when it differs, point `save_file` there and
move the old file if it exists.  The second component lists the
`shutil.move` calls performed. -/
def Project.name_changed (fs : FS) (p : Project) (name : String) :
    Project × List (String × String) :=
  let p0 := { p with name := name }
  if name.length > 0 then
    let old_save_file := p.save_file
    let old_dir := dirname old_save_file
    let new_save_file := pathJoin old_dir (sanitize_name name ++ ".vxn")
    if new_save_file ≠ old_save_file then
      ({ p0 with save_file := new_save_file },
       if fs.pathExists old_save_file then [(old_save_file, new_save_file)]
       else [])
    else (p0, [])
  else (p0, [])

/-! ## Facts about the tag-migration computation -/

theorem tagNames_eq_map (ts : List TagInfo) :
    tagNames ts = ts.map TagInfo.name := rfl

theorem taginfo_name_inj {l : List TagInfo} (h : (tagNames l).Nodup)
    {t t' : TagInfo} (ht : t ∈ l) (ht' : t' ∈ l) (he : t.name = t'.name) :
    t = t' := by
  rw [tagNames_eq_map] at h
  exact List.inj_on_of_nodup_map h ht ht' he

theorem tagInfoDict_eq (old : List TagInfo) (hOld : (tagNames old).Nodup) :
    tagInfoDict old = old.map (fun t => (t.name, t.type)) := by
  rw [tagInfoDict, Dict.ofList_eq_self]
  rw [List.map_map]
  exact hOld

theorem lookup_tagInfoDict_none (old : List TagInfo) (j : String) :
    Dict.lookup (tagInfoDict old) j = none ↔ j ∉ tagNames old := by
  rw [Dict.lookup_eq_none, tagInfoDict, Dict.mem_keys_ofList, List.map_map]
  rfl

theorem lookup_tagInfoDict_of_mem (old : List TagInfo)
    (hOld : (tagNames old).Nodup) {t0 : TagInfo} (h : t0 ∈ old) :
    Dict.lookup (tagInfoDict old) t0.name = some t0.type := by
  rw [tagInfoDict_eq old hOld]
  apply Dict.lookup_eq_of_mem_nodup
  · rw [Dict.keys, List.map_map]
    exact hOld
  · exact List.mem_map_of_mem _ h

theorem lookup_tagInfoDict_some (old : List TagInfo)
    (hOld : (tagNames old).Nodup) {j : String} {ty : TagType}
    (h : Dict.lookup (tagInfoDict old) j = some ty) :
    ∃ t0 ∈ old, t0.name = j ∧ t0.type = ty := by
  rw [tagInfoDict_eq old hOld, Dict.lookup_map_list TagInfo.name TagInfo.type] at h
  cases hf : old.find? (fun t => t.name = j) with
  | none => rw [hf] at h; exact Option.noConfusion h
  | some t0 =>
    rw [hf] at h
    refine ⟨t0, List.mem_of_find?_eq_some hf, ?_, ?_⟩
    · have := List.find?_some hf
      exact of_decide_eq_true this
    · exact Option.some.inj h

/-- C10 is settled here: a freshly constructed project has the single-entry
`completed : bool` schema whose default is `False`; type-derived defaults
are the documented four; and the `default_tags` mapping the first scan seeds
new records with is exactly `{'completed': False}`. -/
theorem claim_C10_default_schema :
    Project.new.tags =
      [{ name := "completed", type := TagType.bool,
         default := TagValue.bool false }] ∧
    TagType.string.defaultValue = TagValue.str "" ∧
    TagType.int.defaultValue = TagValue.int 0 ∧
    TagType.float.defaultValue = TagValue.float 0 ∧
    TagType.bool.defaultValue = TagValue.bool false ∧
    defaultTagsDict Project.new.tags = [("completed", TagValue.bool false)] :=
  ⟨rfl, rfl, rfl, rfl, rfl, rfl⟩

theorem Dict.lookup_insAll_of_lastVal_none {V : Type} {ps : List (String × V)}
    (d : Dict V) {j : String} (h : Dict.lastVal j ps = none) :
    Dict.lookup (Dict.insAll d ps) j = Dict.lookup d j := by
  rw [Dict.lookup_insAll, h]

theorem Dict.lookup_insAll_of_lastVal_some {V : Type} {ps : List (String × V)}
    (d : Dict V) {j : String} {v : V} (h : Dict.lastVal j ps = some v) :
    Dict.lookup (Dict.insAll d ps) j = some v := by
  rw [Dict.lookup_insAll, h]

theorem nodup_filter_names (p : TagInfo → Bool) {l : List TagInfo}
    (h : (tagNames l).Nodup) : ((l.filter p).map TagInfo.name).Nodup := by
  rw [tagNames_eq_map] at h
  exact ((List.filter_sublist l).map TagInfo.name).nodup h

theorem mem_addedTags_iff {old new : List TagInfo} {t : TagInfo} :
    t ∈ addedTags old new ↔ t ∈ new ∧
      (Dict.lookup (tagInfoDict old) t.name = none ∨
       ∃ ty, Dict.lookup (tagInfoDict old) t.name = some ty ∧ ty ≠ t.type) := by
  rw [addedTags, List.mem_filter]
  constructor
  · rintro ⟨h1, h2⟩
    refine ⟨h1, ?_⟩
    cases hl : Dict.lookup (tagInfoDict old) t.name with
    | none => exact Or.inl rfl
    | some ty =>
      rw [hl] at h2
      exact Or.inr ⟨ty, rfl, of_decide_eq_true h2⟩
  · rintro ⟨h1, h2 | ⟨ty, hl, hne⟩⟩
    · refine ⟨h1, ?_⟩
      rw [h2]
    · refine ⟨h1, ?_⟩
      rw [hl]
      exact decide_eq_true hne

theorem mem_removedTags_iff {old new : List TagInfo} {t : TagInfo} :
    t ∈ removedTags old new ↔
      (t ∈ new ∧
        ∃ ty, Dict.lookup (tagInfoDict old) t.name = some ty ∧ ty ≠ t.type) ∨
      (t ∈ old ∧ t.name ∉ tagNames new) := by
  rw [removedTags, List.mem_append, List.mem_filter, List.mem_filter]
  constructor
  · rintro (⟨h1, h2⟩ | ⟨h1, h2⟩)
    · left
      refine ⟨h1, ?_⟩
      cases hl : Dict.lookup (tagInfoDict old) t.name with
      | none =>
        rw [hl] at h2
        exact absurd h2 (by simp)
      | some ty =>
        rw [hl] at h2
        exact ⟨ty, rfl, of_decide_eq_true h2⟩
    · right
      exact ⟨h1, of_decide_eq_true h2⟩
  · rintro (⟨h1, ty, hl, hne⟩ | ⟨h1, h2⟩)
    · left
      refine ⟨h1, ?_⟩
      rw [hl]
      exact decide_eq_true hne
    · right
      exact ⟨h1, decide_eq_true h2⟩

theorem nodup_addedNames (old new : List TagInfo)
    (hNew : (tagNames new).Nodup) :
    ((addedTags old new).map TagInfo.name).Nodup := by
  rw [addedTags]
  exact nodup_filter_names _ hNew

theorem nodup_removedNames (old new : List TagInfo)
    (hOld : (tagNames old).Nodup) (hNew : (tagNames new).Nodup) :
    ((removedTags old new).map TagInfo.name).Nodup := by
  rw [removedTags, List.map_append]
  apply List.Nodup.append (nodup_filter_names _ hNew) (nodup_filter_names _ hOld)
  intro j hj1 hj2
  obtain ⟨t1, ht1, rfl⟩ := List.mem_map.1 hj1
  obtain ⟨t0, ht0, hn0⟩ := List.mem_map.1 hj2
  have ht1new : t1 ∈ new := (List.mem_filter.1 ht1).1
  have h0 : t0.name ∉ tagNames new :=
    of_decide_eq_true (List.mem_filter.1 ht0).2
  apply h0
  rw [hn0, tagNames_eq_map]
  exact List.mem_map_of_mem TagInfo.name ht1new

theorem addedNames_sub {old new : List TagInfo} {j : String}
    (hj : j ∈ (addedTags old new).map TagInfo.name) : j ∈ tagNames new := by
  obtain ⟨t, ht, rfl⟩ := List.mem_map.1 hj
  rw [tagNames_eq_map]
  exact List.mem_map_of_mem TagInfo.name (mem_addedTags_iff.1 ht).1

theorem removedNames_sub (old new : List TagInfo) (j : String)
    (hj : j ∈ (removedTags old new).map TagInfo.name) : j ∈ tagNames old := by
  obtain ⟨t, ht, rfl⟩ := List.mem_map.1 hj
  rcases mem_removedTags_iff.1 ht with ⟨_, ty, hl, _⟩ | ⟨h1, _⟩
  · by_contra hc
    rw [← lookup_tagInfoDict_none old t.name] at hc
    rw [hl] at hc
    exact Option.noConfusion hc
  · rw [tagNames_eq_map]
    exact List.mem_map_of_mem TagInfo.name h1

theorem name_not_removed {old new : List TagInfo} {tg : TagInfo}
    (hOld : (tagNames old).Nodup) (hNew : (tagNames new).Nodup)
    (htg : tg ∈ new)
    (hsame : ∃ t0 ∈ old, t0.name = tg.name ∧ t0.type = tg.type) :
    tg.name ∉ (removedTags old new).map TagInfo.name := by
  obtain ⟨t0, ht0, hname, htype⟩ := hsame
  intro hc
  obtain ⟨tr, htr, hrn⟩ := List.mem_map.1 hc
  rcases mem_removedTags_iff.1 htr with ⟨h1, ty, hl, hne⟩ | ⟨h1, h2⟩
  · have heq : tr = tg := taginfo_name_inj hNew h1 htg hrn
    subst heq
    have hl0 : Dict.lookup (tagInfoDict old) t0.name = some t0.type :=
      lookup_tagInfoDict_of_mem old hOld ht0
    rw [hname] at hl0
    rw [hl0] at hl
    cases hl
    exact hne (htype.symm ▸ rfl)
  · apply h2
    rw [hrn, tagNames_eq_map]
    exact List.mem_map_of_mem TagInfo.name htg

theorem name_not_added {old new : List TagInfo} {tg : TagInfo}
    (hOld : (tagNames old).Nodup) (hNew : (tagNames new).Nodup)
    (htg : tg ∈ new)
    (hsame : ∃ t0 ∈ old, t0.name = tg.name ∧ t0.type = tg.type) :
    tg.name ∉ (addedTags old new).map TagInfo.name := by
  obtain ⟨t0, ht0, hname, htype⟩ := hsame
  intro hc
  obtain ⟨ta, hta, han⟩ := List.mem_map.1 hc
  obtain ⟨h1, h2⟩ := mem_addedTags_iff.1 hta
  have heq : ta = tg := taginfo_name_inj hNew h1 htg han
  subst heq
  have hl0 : Dict.lookup (tagInfoDict old) t0.name = some t0.type :=
    lookup_tagInfoDict_of_mem old hOld ht0
  rw [hname] at hl0
  rcases h2 with h2 | ⟨ty, hl, hne⟩
  · rw [h2] at hl0
    exact Option.noConfusion hl0
  · rw [hl0] at hl
    cases hl
    exact hne (htype ▸ rfl)

theorem applyTagChange_spec (old new : List TagInfo) (m : Media)
    (hOld : (tagNames old).Nodup) (hNew : (tagNames new).Nodup)
    (hKeys : (Dict.keys m.tags).Perm (tagNames old)) :
    ∃ m',
      Media.applyTagChange (removedTags old new) (addedTags old new) m =
        some m' ∧
      (Dict.keys m'.tags).Perm (tagNames new) ∧
      (∀ t ∈ new, (∃ t0 ∈ old, t0.name = t.name ∧ t0.type = t.type) →
        Dict.lookup m'.tags t.name = Dict.lookup m.tags t.name) ∧
      (∀ t ∈ new, (∀ t0 ∈ old, t0.name = t.name → t0.type ≠ t.type) →
        Dict.lookup m'.tags t.name = some t.default) ∧
      (∀ t0 ∈ old, t0.name ∉ tagNames new →
        Dict.lookup m'.tags t0.name = none) := by
  have hmNd : (Dict.keys m.tags).Nodup := hKeys.nodup_iff.2 hOld
  have hRnd := nodup_removedNames old new hOld hNew
  have hRsub : ∀ j ∈ (removedTags old new).map TagInfo.name,
      j ∈ Dict.keys m.tags := by
    intro j hj
    exact hKeys.mem_iff.2 (removedNames_sub old new j hj)
  obtain ⟨t, hdel, htnd, hlook, hmem⟩ :=
    Dict.delAll_spec ((removedTags old new).map TagInfo.name) m.tags hmNd
      hRnd hRsub
  have hapfst : ((addedTags old new).map
      (fun a => (a.name, a.default))).map Prod.fst =
      (addedTags old new).map TagInfo.name := by
    rw [List.map_map]
    rfl
  have hAnd : (((addedTags old new).map
      (fun a => (a.name, a.default))).map Prod.fst).Nodup := by
    rw [hapfst]
    exact nodup_addedNames old new hNew
  refine ⟨{ m with tags := Dict.insAll t ((addedTags old new).map (fun a => (a.name, a.default))) }, ?_, ?_, ?_, ?_, ?_⟩
  · rw [Media.applyTagChange, hdel]
  · -- the key set becomes exactly the new schema's names
    apply List.perm_of_nodup_nodup_toFinset_eq
      (Dict.nodup_insAll _ htnd) hNew
    ext j
    simp only [List.mem_toFinset]
    rw [Dict.mem_keys_insAll, hapfst]
    constructor
    · rintro (hkt | hka)
      · obtain ⟨hkm, hkr⟩ := (hmem j).1 hkt
        have hjold : j ∈ tagNames old := hKeys.mem_iff.1 hkm
        by_contra hc
        apply hkr
        rw [tagNames_eq_map] at hjold
        obtain ⟨t0, ht0, rfl⟩ := List.mem_map.1 hjold
        have : t0 ∈ removedTags old new :=
          mem_removedTags_iff.2 (Or.inr ⟨ht0, hc⟩)
        exact List.mem_map_of_mem TagInfo.name this
      · exact addedNames_sub hka
    · intro hjnew
      rw [tagNames_eq_map] at hjnew
      obtain ⟨t', ht', rfl⟩ := List.mem_map.1 hjnew
      cases hl : Dict.lookup (tagInfoDict old) t'.name with
      | none =>
        right
        exact List.mem_map_of_mem TagInfo.name
          (mem_addedTags_iff.2 ⟨ht', Or.inl hl⟩)
      | some ty =>
        by_cases hty : ty = t'.type
        · left
          rw [hmem t'.name]
          obtain ⟨t0, ht0, hn0, ht0ty⟩ := lookup_tagInfoDict_some old hOld hl
          constructor
          · apply hKeys.mem_iff.2
            rw [← hn0, tagNames_eq_map]
            exact List.mem_map_of_mem TagInfo.name ht0
          · exact name_not_removed hOld hNew ht'
              ⟨t0, ht0, hn0, by rw [ht0ty, hty]⟩
        · right
          exact List.mem_map_of_mem TagInfo.name
            (mem_addedTags_iff.2 ⟨ht', Or.inr ⟨ty, hl, hty⟩⟩)
  · -- a persisting tag with an unchanged type keeps its value
    intro tg htg hsame
    have hnotadd := name_not_added hOld hNew htg hsame
    have hlast : Dict.lastVal tg.name
        ((addedTags old new).map (fun a => (a.name, a.default))) = none := by
      rw [Dict.lastVal_eq_none, hapfst]
      exact hnotadd
    rw [Dict.lookup_insAll_of_lastVal_none t hlast, hlook tg.name,
      if_neg (name_not_removed hOld hNew htg hsame)]
  · -- a new or type-changed tag is reset to its default
    intro tg htg hdiff
    have htga : tg ∈ addedTags old new := by
      cases hl : Dict.lookup (tagInfoDict old) tg.name with
      | none => exact mem_addedTags_iff.2 ⟨htg, Or.inl hl⟩
      | some ty =>
        obtain ⟨t0, ht0, hn0, ht0ty⟩ := lookup_tagInfoDict_some old hOld hl
        exact mem_addedTags_iff.2
          ⟨htg, Or.inr ⟨ty, hl, fun hc => hdiff t0 ht0 hn0 (by rw [ht0ty, hc])⟩⟩
    have hlast : Dict.lastVal tg.name
        ((addedTags old new).map (fun a => (a.name, a.default))) =
        some tg.default :=
      Dict.lastVal_of_mem_nodup hAnd
        (List.mem_map_of_mem (fun a => (a.name, a.default)) htga)
    exact Dict.lookup_insAll_of_lastVal_some t hlast
  · -- a tag absent from the new schema is deleted
    intro t0 ht0 hout
    have hlast : Dict.lastVal t0.name
        ((addedTags old new).map (fun a => (a.name, a.default))) = none := by
      rw [Dict.lastVal_eq_none, hapfst]
      intro hc
      exact hout (addedNames_sub hc)
    rw [Dict.lookup_insAll_of_lastVal_none t hlast, hlook t0.name, if_pos]
    exact List.mem_map_of_mem TagInfo.name
      (mem_removedTags_iff.2 (Or.inr ⟨ht0, hout⟩))

theorem migrateMedia_spec (R : Media → Media → Prop)
    (removed added : List TagInfo) (d : Dict Media)
    (h : ∀ e ∈ d, ∃ m', Media.applyTagChange removed added e.2 = some m' ∧
      R e.2 m') :
    ∃ d', migrateMedia removed added d = some d' ∧
      Dict.keys d' = Dict.keys d ∧
      ∀ k mv, Dict.lookup d k = some mv →
        ∃ m', Dict.lookup d' k = some m' ∧ R mv m' := by
  induction d with
  | nil =>
    refine ⟨[], rfl, rfl, ?_⟩
    intro k mv h'
    simp [Dict.lookup] at h'
  | cons e es ih =>
    obtain ⟨m', hap, hR⟩ := h e (List.mem_cons_self _ _)
    obtain ⟨es', hmig, hkeys, hlk⟩ :=
      ih (fun e' he' => h e' (List.mem_cons_of_mem _ he'))
    refine ⟨(e.1, m') :: es', ?_, ?_, ?_⟩
    · simp only [migrateMedia, hap, hmig]
    · simp [hkeys]
    · intro k mv hkv
      simp only [Dict.lookup] at hkv ⊢
      by_cases hek : e.1 = k
      · rw [if_pos hek] at hkv ⊢
        cases hkv
        exact ⟨m', rfl, hR⟩
      · rw [if_neg hek] at hkv ⊢
        exact hlk k mv hkv

/-- **C1.**  For every project whose records' tag-mapping keys are exactly
the old schema's entry names (with the documented unique-names invariant on
both schemas), `update_tags(new_tags)` succeeds, sets `tags` to `new_tags`
in the caller's order, keeps the media keys, and leaves every record with
exactly the new schema's entry names: names absent from the new schema are
deleted, new or type-changed names are set to the new entry's default, and
a name persisting with an unchanged type keeps its value. -/
theorem claim_C1_update_tags (p : Project) (new_tags : List TagInfo)
    (hOld : (tagNames p.tags).Nodup) (hNew : (tagNames new_tags).Nodup)
    (hKeys : ∀ e ∈ p.media, (Dict.keys (e.2).tags).Perm (tagNames p.tags)) :
    ∃ p', p.update_tags new_tags = some p' ∧
      p'.tags = new_tags ∧
      Dict.keys p'.media = Dict.keys p.media ∧
      ∀ k mv, Dict.lookup p.media k = some mv →
        ∃ m', Dict.lookup p'.media k = some m' ∧
          (Dict.keys m'.tags).Perm (tagNames new_tags) ∧
          (∀ t ∈ new_tags,
            (∃ t0 ∈ p.tags, t0.name = t.name ∧ t0.type = t.type) →
            Dict.lookup m'.tags t.name = Dict.lookup mv.tags t.name) ∧
          (∀ t ∈ new_tags,
            (∀ t0 ∈ p.tags, t0.name = t.name → t0.type ≠ t.type) →
            Dict.lookup m'.tags t.name = some t.default) ∧
          (∀ t0 ∈ p.tags, t0.name ∉ tagNames new_tags →
            Dict.lookup m'.tags t0.name = none) := by
  obtain ⟨d', hmig, hkeys, hlk⟩ := migrateMedia_spec
    (fun mv m' =>
      (Dict.keys m'.tags).Perm (tagNames new_tags) ∧
      (∀ t ∈ new_tags,
        (∃ t0 ∈ p.tags, t0.name = t.name ∧ t0.type = t.type) →
        Dict.lookup m'.tags t.name = Dict.lookup mv.tags t.name) ∧
      (∀ t ∈ new_tags,
        (∀ t0 ∈ p.tags, t0.name = t.name → t0.type ≠ t.type) →
        Dict.lookup m'.tags t.name = some t.default) ∧
      (∀ t0 ∈ p.tags, t0.name ∉ tagNames new_tags →
        Dict.lookup m'.tags t0.name = none))
    (removedTags p.tags new_tags) (addedTags p.tags new_tags) p.media
    (fun e he => applyTagChange_spec p.tags new_tags e.2 hOld hNew (hKeys e he))
  refine ⟨{ p with tags := new_tags, media := d' }, ?_, rfl, hkeys, hlk⟩
  rw [Project.update_tags, hmig]

/-! ## Characterization of the scan walk -/

/-- The record a file ends up linked to by the walk: the existing record
under its relpath in the pre-walk mapping, or the newly created one. -/
def resolveMedia (m0 : Dict Media) (dt : Dict TagValue) (f : FileEntry) :
    Media :=
  match Dict.lookup m0 f.relpath with
  | some m => m
  | none => Project._create_media f dt

/-- A file entry with its `media` reference linked by the walk. -/
def linkFile (m0 : Dict Media) (dt : Dict TagValue) (f : FileEntry) :
    FileEntry :=
  { f with media := some (resolveMedia m0 dt f) }

mutual

/-- The tree produced by the walk: every reachable file entry linked. -/
def linkTree (m0 : Dict Media) (dt : Dict TagValue) : Directory → Directory
  | .node p n r ex fls ds =>
    .node p n r ex (fls.map (linkFile m0 dt)) (linkTreeList m0 dt ds)

/-- `linkTree` over sibling directories. -/
def linkTreeList (m0 : Dict Media) (dt : Dict TagValue) :
    List Directory → List Directory
  | [] => []
  | d :: ds => linkTree m0 dt d :: linkTreeList m0 dt ds

end

/-- The `(relpath, record)` pairs the walk creates, in walk order: one for
every file whose relpath misses the pre-walk mapping. -/
def missedPairs (m0 : Dict Media) (dt : Dict TagValue)
    (fls : List FileEntry) : List (String × Media) :=
  (fls.filter (fun f => (Dict.lookup m0 f.relpath).isNone)).map
    (fun f => (f.relpath, Project._create_media f dt))

theorem missedPairs_append (m0 : Dict Media) (dt : Dict TagValue)
    (a b : List FileEntry) :
    missedPairs m0 dt (a ++ b) = missedPairs m0 dt a ++ missedPairs m0 dt b := by
  simp [missedPairs, List.filter_append]

theorem missedPairs_lookup_none (m0 : Dict Media) (dt : Dict TagValue)
    (fls : List FileEntry) :
    ∀ e ∈ missedPairs m0 dt fls, Dict.lookup m0 e.1 = none := by
  intro e he
  obtain ⟨f, hf, rfl⟩ := List.mem_map.1 he
  have := (List.mem_filter.1 hf).2
  rw [Option.isNone_iff_eq_none] at this
  exact this

theorem scanFiles_eq (m0 : Dict Media) (dt : Dict TagValue)
    (fls : List FileEntry) (nm : Dict Media) :
    scanFiles m0 dt fls nm =
      (fls.map (linkFile m0 dt), Dict.insAll nm (missedPairs m0 dt fls)) := by
  induction fls generalizing nm with
  | nil => simp [scanFiles, missedPairs, Dict.insAll]
  | cons f fs ih =>
    cases hl : Dict.lookup m0 f.relpath with
    | some m =>
      have h1 : linkFile m0 dt f = { f with media := some m } := by
        simp [linkFile, resolveMedia, hl]
      have h2 : missedPairs m0 dt (f :: fs) = missedPairs m0 dt fs := by
        simp [missedPairs, List.filter_cons, hl]
      simp only [scanFiles, hl, ih, List.map_cons, h1, h2]
    | none =>
      have h1 : linkFile m0 dt f =
          { f with media := some (Project._create_media f dt) } := by
        simp [linkFile, resolveMedia, hl]
      have h2 : missedPairs m0 dt (f :: fs) =
          (f.relpath, Project._create_media f dt) :: missedPairs m0 dt fs := by
        simp [missedPairs, List.filter_cons, hl]
      simp only [scanFiles, hl, ih, List.map_cons, h1, h2, Dict.insAll]

/-- Structural induction over the directory tree through the sibling
lists. -/
theorem Directory.inductionOn {P : Directory → Prop}
    (h : ∀ p n r e fls ds, (∀ d ∈ ds, P d) → P (.node p n r e fls ds)) :
    ∀ d, P d
  | .node p n r e fls ds =>
    h p n r e fls ds (fun d hd => Directory.inductionOn h d)
termination_by d => sizeOf d
decreasing_by
  have h1 := List.sizeOf_lt_of_mem hd
  simp only [Directory.node.sizeOf_spec]
  omega

theorem scanDirs_eq_of (m0 : Dict Media) (dt : Dict TagValue)
    (ds : List Directory)
    (ih : ∀ d ∈ ds, ∀ nm, scanDir m0 dt d nm =
      (linkTree m0 dt d,
       Dict.insAll nm (missedPairs m0 dt d.allFiles))) :
    ∀ nm, scanDirs m0 dt ds nm =
      (linkTreeList m0 dt ds,
       Dict.insAll nm (missedPairs m0 dt (Directory.allFilesList ds))) := by
  induction ds with
  | nil =>
    intro nm
    simp [scanDirs, linkTreeList, Directory.allFilesList, missedPairs,
      Dict.insAll]
  | cons d ds ihs =>
    intro nm
    have hd := ih d (List.mem_cons_self _ _)
    have hds := ihs (fun d' hd' => ih d' (List.mem_cons_of_mem _ hd'))
    simp only [scanDirs, hd, hds, linkTreeList, Directory.allFilesList,
      missedPairs_append, Dict.insAll_append]

theorem scanDir_eq (m0 : Dict Media) (dt : Dict TagValue) :
    ∀ (d : Directory) (nm : Dict Media), scanDir m0 dt d nm =
      (linkTree m0 dt d, Dict.insAll nm (missedPairs m0 dt d.allFiles)) := by
  apply Directory.inductionOn
    (P := fun d => ∀ nm, scanDir m0 dt d nm =
      (linkTree m0 dt d, Dict.insAll nm (missedPairs m0 dt d.allFiles)))
  intro p n r e fls ds ih nm
  simp only [scanDir, scanFiles_eq, scanDirs_eq_of m0 dt ds ih, linkTree,
    Directory.allFiles, missedPairs_append, Dict.insAll_append]

theorem linkTree_path (m0 : Dict Media) (dt : Dict TagValue) (d : Directory) :
    (linkTree m0 dt d).path = d.path := by
  cases d
  rfl

theorem allFiles_linkTree (m0 : Dict Media) (dt : Dict TagValue) :
    ∀ d : Directory,
      (linkTree m0 dt d).allFiles = d.allFiles.map (linkFile m0 dt) := by
  apply Directory.inductionOn
    (P := fun d =>
      (linkTree m0 dt d).allFiles = d.allFiles.map (linkFile m0 dt))
  intro p n r e fls ds ih
  have hlist : ∀ ds' : List Directory, (∀ d ∈ ds',
      (linkTree m0 dt d).allFiles = d.allFiles.map (linkFile m0 dt)) →
      Directory.allFilesList (linkTreeList m0 dt ds') =
        (Directory.allFilesList ds').map (linkFile m0 dt) := by
    intro ds'
    induction ds' with
    | nil => intro _; simp [linkTreeList, Directory.allFilesList]
    | cons d' ds'' ihs =>
      intro h'
      simp only [linkTreeList, Directory.allFilesList, List.map_append,
        h' d' (List.mem_cons_self _ _),
        ihs (fun x hx => h' x (List.mem_cons_of_mem _ hx))]
  simp only [linkTree, Directory.allFiles, List.map_append, hlist ds ih]

theorem mem_allFilesList {f : FileEntry} :
    ∀ {ds : List Directory} {d : Directory},
      d ∈ ds → f ∈ d.allFiles → f ∈ Directory.allFilesList ds := by
  intro ds
  induction ds with
  | nil =>
    intro d hd _
    simp at hd
  | cons d0 ds0 ih =>
    intro d hd hf
    rcases List.mem_cons.1 hd with h | h
    · subst h
      exact List.mem_append.2 (Or.inl hf)
    · exact List.mem_append.2 (Or.inr (ih h hf))

theorem linkTree_id (m0 : Dict Media) (dt : Dict TagValue) :
    ∀ d : Directory,
      (∀ f ∈ d.allFiles, linkFile m0 dt f = f) → linkTree m0 dt d = d := by
  apply Directory.inductionOn
    (P := fun d => (∀ f ∈ d.allFiles, linkFile m0 dt f = f) →
      linkTree m0 dt d = d)
  intro p n r e fls ds ih hf
  have hmap : ∀ l : List FileEntry, (∀ f ∈ l, linkFile m0 dt f = f) →
      l.map (linkFile m0 dt) = l := by
    intro l
    induction l with
    | nil => intro _; rfl
    | cons x xs ihl =>
      intro h'
      rw [List.map_cons, h' x (List.mem_cons_self _ _),
        ihl (fun y hy => h' y (List.mem_cons_of_mem _ hy))]
  have hf1 : ∀ f ∈ fls, linkFile m0 dt f = f := fun f hfm =>
    hf f (List.mem_append.2 (Or.inl hfm))
  have hf2 : ∀ d' ∈ ds, ∀ f ∈ Directory.allFiles d', linkFile m0 dt f = f :=
    fun d' hd' f hfm => hf f (List.mem_append.2 (Or.inr (mem_allFilesList hd' hfm)))
  have hlist : ∀ ds' : List Directory,
      (∀ d' ∈ ds', (∀ f ∈ Directory.allFiles d', linkFile m0 dt f = f) →
        linkTree m0 dt d' = d') →
      (∀ d' ∈ ds', ∀ f ∈ Directory.allFiles d', linkFile m0 dt f = f) →
      linkTreeList m0 dt ds' = ds' := by
    intro ds'
    induction ds' with
    | nil => intro _ _; rfl
    | cons d' ds'' ihs =>
      intro hih hfa
      rw [linkTreeList, hih d' (List.mem_cons_self _ _)
          (hfa d' (List.mem_cons_self _ _)),
        ihs (fun x hx => hih x (List.mem_cons_of_mem _ hx))
          (fun x hx => hfa x (List.mem_cons_of_mem _ hx))]
  rw [linkTree, hmap fls hf1, hlist ds ih hf2]

theorem setupRoot_of_match (fs : FS) (p : Project) (r0 : Directory)
    (hroot : p.root = some r0)
    (hmatch : fs.realpath r0.path = fs.realpath (fs.normPath p.path)) :
    p.setupRoot fs = r0 := by
  rw [Project.setupRoot, hroot]
  simp [hmatch]

theorem scanNewMedia_eq (fs : FS) (p : Project) :
    p.scanNewMedia fs = Dict.insAll []
      (missedPairs p.media (defaultTagsDict p.tags)
        ((p.setupRoot fs).allFiles)) := by
  rw [Project.scanNewMedia, scanDir_eq]

theorem missedPairs_fst (m0 : Dict Media) (dt : Dict TagValue)
    (fls : List FileEntry) :
    (missedPairs m0 dt fls).map Prod.fst =
      (fls.filter (fun f => (Dict.lookup m0 f.relpath).isNone)).map
        FileEntry.relpath := by
  rw [missedPairs, List.map_map]
  rfl

theorem scanNewMedia_fresh (fs : FS) (p : Project) :
    ∀ e ∈ p.scanNewMedia fs, e.1 ∉ Dict.keys p.media := by
  intro e he
  rw [scanNewMedia_eq] at he
  have h1 : e.1 ∈ Dict.keys (Dict.ofList
      (missedPairs p.media (defaultTagsDict p.tags)
        ((p.setupRoot fs).allFiles))) :=
    List.mem_map_of_mem Prod.fst he
  rw [Dict.mem_keys_ofList] at h1
  obtain ⟨e', he', hfst⟩ := List.mem_map.1 h1
  have := missedPairs_lookup_none p.media (defaultTagsDict p.tags)
    ((p.setupRoot fs).allFiles) e' he'
  rw [hfst] at this
  rw [← Dict.lookup_eq_none]
  exact this

theorem scanWithLog_spec (fs : FS) (p : Project) :
    (p.scanNewMedia fs = [] →
      p.scanWithLog fs =
        ({ p with root := some (linkTree p.media (defaultTagsDict p.tags)
            (p.setupRoot fs)) }, [])) ∧
    (p.scanNewMedia fs ≠ [] →
      p.scanWithLog fs =
        ({ p with
            root := some (linkTree p.media (defaultTagsDict p.tags)
              (p.setupRoot fs)),
            media := p.media ++ p.scanNewMedia fs,
            number_of_files := (p.media ++ p.scanNewMedia fs).length },
         [p.media ++ p.scanNewMedia fs])) := by
  have hnm := scanNewMedia_eq fs p
  have hsd := scanDir_eq p.media (defaultTagsDict p.tags) (p.setupRoot fs) []
  constructor
  · intro h
    rw [Project.scanWithLog, hsd, ← hnm]
    rw [h]
    rfl
  · intro h
    rw [Project.scanWithLog, hsd, ← hnm]
    have hlen : (p.scanNewMedia fs).length > 0 := List.length_pos.2 h
    have hfold : Dict.insAll p.media (p.scanNewMedia fs) =
        p.media ++ p.scanNewMedia fs := by
      apply Dict.insAll_fresh
      · have : (p.scanNewMedia fs).map Prod.fst =
            Dict.keys (p.scanNewMedia fs) := rfl
        rw [this, hnm]
        exact Dict.keys_ofList_nodup _
      · exact scanNewMedia_fresh fs p
    simp only [if_pos hlen, hfold]

theorem Project.update_root_self (pr : Project) {x : Option Directory}
    (h : pr.root = x) : { pr with root := x } = pr := by
  cases pr
  cases h
  rfl

theorem FileEntry.update_media_self (f : FileEntry) {x : Option Media}
    (h : f.media = x) : { f with media := x } = f := by
  cases f
  cases h
  rfl

theorem defaultTagsDict_eq (tags : List TagInfo)
    (h : (tagNames tags).Nodup) :
    defaultTagsDict tags = tags.map (fun t => (t.name, t.default)) := by
  rw [defaultTagsDict, Dict.ofList_eq_self]
  rw [List.map_map]
  exact h

theorem keys_defaultTagsDict (tags : List TagInfo)
    (h : (tagNames tags).Nodup) :
    Dict.keys (defaultTagsDict tags) = tagNames tags := by
  rw [defaultTagsDict_eq tags h, Dict.keys, List.map_map]
  rfl

theorem lookup_defaultTagsDict (tags : List TagInfo)
    (h : (tagNames tags).Nodup) {t : TagInfo} (ht : t ∈ tags) :
    Dict.lookup (defaultTagsDict tags) t.name = some t.default := by
  rw [defaultTagsDict_eq tags h]
  apply Dict.lookup_eq_of_mem_nodup
  · rw [Dict.keys, List.map_map]
    exact h
  · exact List.mem_map_of_mem _ ht

/-- **C4.**  The `media` mapping is never observable in a partially merged
state during a scan: the walk accumulates new records separately
(`scanNewMedia`), the assignment log of the `media` trait is empty when no
record was created — `media` is then not reassigned at all — and otherwise
consists of exactly one bulk assignment, performed after the walk, whose
value is the old entries followed by the new ones. -/
theorem claim_C4_bulk_media_assignment (fs : FS) (p : Project) :
    (p.scanWithLog fs).2 =
      (if p.scanNewMedia fs = [] then []
       else [p.media ++ p.scanNewMedia fs]) ∧
    (p.scanNewMedia fs = [] → (p.scan fs).media = p.media) ∧
    (p.scanNewMedia fs ≠ [] →
      (p.scan fs).media = p.media ++ p.scanNewMedia fs) := by
  obtain ⟨h1, h2⟩ := scanWithLog_spec fs p
  by_cases h : p.scanNewMedia fs = []
  · rw [if_pos h, h1 h]
    refine ⟨rfl, fun _ => ?_, fun hc => absurd h hc⟩
    rw [Project.scan, h1 h]
  · rw [if_neg h, h2 h]
    refine ⟨rfl, fun hc => absurd hc h, fun _ => ?_⟩
    rw [Project.scan, h2 h]

@[simp] theorem linkFile_relpath (m0 : Dict Media) (dt : Dict TagValue)
    (f : FileEntry) : (linkFile m0 dt f).relpath = f.relpath := rfl

@[simp] theorem linkFile_path (m0 : Dict Media) (dt : Dict TagValue)
    (f : FileEntry) : (linkFile m0 dt f).path = f.path := rfl

@[simp] theorem linkFile_media (m0 : Dict Media) (dt : Dict TagValue)
    (f : FileEntry) :
    (linkFile m0 dt f).media = some (resolveMedia m0 dt f) := rfl

theorem scan_media_of_nil (fs : FS) (p : Project)
    (h : p.scanNewMedia fs = []) : (p.scan fs).media = p.media := by
  rw [Project.scan, (scanWithLog_spec fs p).1 h]

theorem scan_media_of_ne (fs : FS) (p : Project)
    (h : p.scanNewMedia fs ≠ []) :
    (p.scan fs).media = p.media ++ p.scanNewMedia fs := by
  rw [Project.scan, (scanWithLog_spec fs p).2 h]

theorem scan_root_eq (fs : FS) (p : Project) :
    (p.scan fs).root = some (linkTree p.media (defaultTagsDict p.tags)
      (p.setupRoot fs)) := by
  by_cases h : p.scanNewMedia fs = []
  · rw [Project.scan, (scanWithLog_spec fs p).1 h]
  · rw [Project.scan, (scanWithLog_spec fs p).2 h]

theorem scan_tags_eq (fs : FS) (p : Project) : (p.scan fs).tags = p.tags := by
  by_cases h : p.scanNewMedia fs = []
  · rw [Project.scan, (scanWithLog_spec fs p).1 h]
  · rw [Project.scan, (scanWithLog_spec fs p).2 h]

theorem scan_path_eq (fs : FS) (p : Project) : (p.scan fs).path = p.path := by
  by_cases h : p.scanNewMedia fs = []
  · rw [Project.scan, (scanWithLog_spec fs p).1 h]
  · rw [Project.scan, (scanWithLog_spec fs p).2 h]

theorem scan_media_preserved (fs : FS) (p : Project) {k : String} {m : Media}
    (h : Dict.lookup p.media k = some m) :
    Dict.lookup (p.scan fs).media k = some m := by
  by_cases hc : p.scanNewMedia fs = []
  · rw [scan_media_of_nil fs p hc]
    exact h
  · rw [scan_media_of_ne fs p hc, Dict.lookup_append, h]

theorem missedPairs_nodup_keys (m0 : Dict Media) (dt : Dict TagValue)
    {fls : List FileEntry} (hnd : (fls.map FileEntry.relpath).Nodup) :
    ((missedPairs m0 dt fls).map Prod.fst).Nodup := by
  rw [missedPairs_fst]
  exact ((List.filter_sublist fls).map FileEntry.relpath).nodup hnd

theorem scan_lookup_resolve (fs : FS) (p : Project) (r0 : Directory)
    (hroot : p.root = some r0)
    (hmatch : fs.realpath r0.path = fs.realpath (fs.normPath p.path))
    (hnd : (r0.allFiles.map FileEntry.relpath).Nodup) :
    ∀ f ∈ r0.allFiles,
      Dict.lookup (p.scan fs).media f.relpath =
        some (resolveMedia p.media (defaultTagsDict p.tags) f) := by
  intro f hf
  have hsr := setupRoot_of_match fs p r0 hroot hmatch
  cases hl : Dict.lookup p.media f.relpath with
  | some m =>
    have hres : resolveMedia p.media (defaultTagsDict p.tags) f = m := by
      simp only [resolveMedia, hl]
    rw [hres]
    exact scan_media_preserved fs p hl
  | none =>
    have hres : resolveMedia p.media (defaultTagsDict p.tags) f =
        Project._create_media f (defaultTagsDict p.tags) := by
      simp only [resolveMedia, hl]
    have hmem : (f.relpath,
        Project._create_media f (defaultTagsDict p.tags)) ∈
        missedPairs p.media (defaultTagsDict p.tags) r0.allFiles := by
      rw [missedPairs]
      apply List.mem_map_of_mem
      rw [List.mem_filter]
      refine ⟨hf, ?_⟩
      rw [hl]
      rfl
    have hndm := missedPairs_nodup_keys p.media (defaultTagsDict p.tags) hnd
    have hnm : p.scanNewMedia fs =
        missedPairs p.media (defaultTagsDict p.tags) r0.allFiles := by
      rw [scanNewMedia_eq, hsr]
      exact Dict.ofList_eq_self hndm
    have hne : p.scanNewMedia fs ≠ [] := by
      rw [hnm]
      intro hc
      rw [hc] at hmem
      simp at hmem
    rw [scan_media_of_ne fs p hne, Dict.lookup_append, hl, hnm, hres]
    exact Dict.lookup_eq_of_mem_nodup hndm hmem

/-- **C2.**  A scan never removes or replaces an existing `media` entry:
every key present before keeps the identical record.  With an unchanged
tree (matching root, duplicate-free relpaths), a second scan is a complete
no-op: `scan (scan p) = scan p`, so keys and records are unchanged and no
record is recreated. -/
theorem claim_C2_scan_preserves_and_idempotent (fs : FS) (p : Project)
    (r0 : Directory) (hroot : p.root = some r0)
    (hmatch : fs.realpath r0.path = fs.realpath (fs.normPath p.path))
    (hnd : (r0.allFiles.map FileEntry.relpath).Nodup) :
    (∀ k m, Dict.lookup p.media k = some m →
      Dict.lookup (p.scan fs).media k = some m) ∧
    (p.scan fs).scan fs = p.scan fs := by
  refine ⟨fun k m h => scan_media_preserved fs p h, ?_⟩
  have hsr := setupRoot_of_match fs p r0 hroot hmatch
  have hlookup := scan_lookup_resolve fs p r0 hroot hmatch hnd
  have hqroot : (p.scan fs).root =
      some (linkTree p.media (defaultTagsDict p.tags) r0) := by
    rw [scan_root_eq, hsr]
  have hqsr : (p.scan fs).setupRoot fs =
      linkTree p.media (defaultTagsDict p.tags) r0 := by
    apply setupRoot_of_match fs (p.scan fs) _ hqroot
    rw [linkTree_path, scan_path_eq]
    exact hmatch
  have hqdt : defaultTagsDict (p.scan fs).tags = defaultTagsDict p.tags := by
    rw [scan_tags_eq]
  have hfe : ((linkTree p.media (defaultTagsDict p.tags) r0).allFiles).filter
      (fun f => (Dict.lookup (p.scan fs).media f.relpath).isNone) = [] := by
    rw [List.filter_eq_nil_iff]
    intro f' hf'
    rw [allFiles_linkTree] at hf'
    obtain ⟨f, hf, rfl⟩ := List.mem_map.1 hf'
    rw [linkFile_relpath, hlookup f hf]
    simp
  have hqnm : (p.scan fs).scanNewMedia fs = [] := by
    rw [scanNewMedia_eq, hqsr, hqdt, missedPairs, hfe]
    rfl
  rw [Project.scan, (scanWithLog_spec fs (p.scan fs)).1 hqnm, hqsr, hqdt]
  have hlt : linkTree (p.scan fs).media (defaultTagsDict p.tags)
      (linkTree p.media (defaultTagsDict p.tags) r0) =
      linkTree p.media (defaultTagsDict p.tags) r0 := by
    apply linkTree_id
    intro f' hf'
    rw [allFiles_linkTree] at hf'
    obtain ⟨f, hf, rfl⟩ := List.mem_map.1 hf'
    have h2 : resolveMedia (p.scan fs).media (defaultTagsDict p.tags)
        (linkFile p.media (defaultTagsDict p.tags) f) =
        resolveMedia p.media (defaultTagsDict p.tags) f := by
      simp only [resolveMedia, linkFile_relpath, hlookup f hf]
    calc linkFile (p.scan fs).media (defaultTagsDict p.tags)
          (linkFile p.media (defaultTagsDict p.tags) f)
        = { linkFile p.media (defaultTagsDict p.tags) f with
            media := some (resolveMedia p.media (defaultTagsDict p.tags) f) } := by
          rw [linkFile, h2]
      _ = linkFile p.media (defaultTagsDict p.tags) f :=
          FileEntry.update_media_self _ rfl
  rw [hlt]
  exact Project.update_root_self _ hqroot

/-- **C3.**  After a scan, every reachable file entry's `media` reference is
the record stored in the (post-scan) mapping under its relpath; every
reachable file whose relpath was absent beforehand gets a fresh record
constructed from its path whose tag mapping is exactly the current schema's
entry names mapped to their defaults. -/
theorem claim_C3_scan_links_and_seeds (fs : FS) (p : Project)
    (r0 : Directory) (hroot : p.root = some r0)
    (hmatch : fs.realpath r0.path = fs.realpath (fs.normPath p.path))
    (hnd : (r0.allFiles.map FileEntry.relpath).Nodup)
    (hOld : (tagNames p.tags).Nodup) :
    ∃ r', (p.scan fs).root = some r' ∧
      (∀ f ∈ r'.allFiles,
        f.media = Dict.lookup (p.scan fs).media f.relpath) ∧
      (∀ f ∈ r0.allFiles, Dict.lookup p.media f.relpath = none →
        Dict.lookup (p.scan fs).media f.relpath =
          some { Media.from_path f.path with
                 tags := defaultTagsDict p.tags }) ∧
      Dict.keys (defaultTagsDict p.tags) = tagNames p.tags ∧
      (∀ t ∈ p.tags,
        Dict.lookup (defaultTagsDict p.tags) t.name = some t.default) := by
  have hsr := setupRoot_of_match fs p r0 hroot hmatch
  have hlookup := scan_lookup_resolve fs p r0 hroot hmatch hnd
  refine ⟨linkTree p.media (defaultTagsDict p.tags) r0, ?_, ?_, ?_, ?_, ?_⟩
  · rw [scan_root_eq, hsr]
  · intro f' hf'
    rw [allFiles_linkTree] at hf'
    obtain ⟨f, hf, rfl⟩ := List.mem_map.1 hf'
    rw [linkFile_media, linkFile_relpath, hlookup f hf]
  · intro f hf hl
    have hres : resolveMedia p.media (defaultTagsDict p.tags) f =
        Project._create_media f (defaultTagsDict p.tags) := by
      simp only [resolveMedia, hl]
    rw [hlookup f hf, hres]
    rfl
  · exact keys_defaultTagsDict p.tags hOld
  · exact fun t ht => lookup_defaultTagsDict p.tags hOld ht

/-! ## Persistence claims -/

theorem string_length_pos_iff (s : String) : s.length > 0 ↔ s ≠ "" := by
  constructor
  · intro h hc
    rw [hc] at h
    simp [String.length] at h
  · intro h
    cases s with
    | mk l =>
      cases l with
      | nil => exact absurd rfl h
      | cons c cs => simp [String.length]

/-- **C7.**  `save()` with an empty `save_file` raises the configuration
error and performs no write; with a non-empty `save_file` it delegates to
`save_as` on that file (one complete document written there) and updates
`last_save_time` to the destination's saved-time stamp, leaving every other
field unchanged. -/
theorem claim_C7_save (fs : FS) (p : Project) (r0 : Directory)
    (hroot : p.root = some r0) :
    (p.save_file = "" →
      p.save fs = (.error "No valid save file set.", [])) ∧
    (p.save_file ≠ "" →
      ∃ doc, p.save_as = some doc ∧
        p.save fs =
          (.ok { p with last_save_time := fs.savedTime p.save_file },
           [(p.save_file, some doc)])) := by
  constructor
  · intro h
    rw [Project.save, if_neg]
    intro hc
    exact ((string_length_pos_iff p.save_file).1 hc) h
  · intro h
    have hdoc : p.save_as = some
        { version := some 1, path := some p.path, name := some p.name,
          description := some p.description,
          tags := some (p.tags.map (fun t => (t.name, t.type))),
          media := some (p.media.map (fun e => (e.1, e.2.to_dict))),
          root := some (Directory.getstate r0),
          processors := some (p.processors.map processorDump) } := by
      rw [Project.save_as, hroot, Option.map_some']
    refine ⟨_, hdoc, ?_⟩
    rw [Project.save, if_pos ((string_length_pos_iff p.save_file).2 h), hdoc]

/-- **C8.**  `load()` with no source and no file at `save_file` is a silent
no-op: it succeeds and returns the project unchanged. -/
theorem claim_C8_load_noop (fs : FS) (p : Project)
    (h : fs.pathExists p.save_file = false) :
    p.load fs none = (p, true) := by
  simp [Project.load, h]

/-- One concrete filesystem for instantiating theorems on closed inputs. -/
def fsId : FS :=
  { realpath := fun s => s, normPath := fun s => s,
    pathExists := fun _ => false, savedTime := fun _ => "timestamp",
    build := fun p ex => .node p "" "" ex [] [],
    readDoc := fun _ => ⟨none, none, none, none, none, none, none, none⟩,
    projectDir := "/home/user/.vixen" }

/-- The project of the C6 counterexample. -/
def projC6 : Project := { Project.new with name := "old" }

/-- A persisted document missing the required `tags` field. -/
def docC6 : SaveDoc :=
  { version := some 1, path := some "/data", name := some "newname",
    description := none, tags := none, media := none, root := none,
    processors := none }

/-- **C6 (counterexample).**  A load of a document missing the required
`tags` field fails, yet the in-memory project has already been mutated:
its `name` changed from `"old"` to `"newname"`, contradicting the claim
that a failed load leaves the project exactly as it was. -/
theorem claim_C6_counterexample :
    (projC6.loadDoc fsId docC6).2 = false ∧
    (projC6.loadDoc fsId docC6).1.name = "newname" ∧
    projC6.name = "old" :=
  ⟨rfl, rfl, rfl⟩

/-- **C6 (amended).**  A load failing on the missing `tags` field leaves the
fields not yet assigned at the point of failure — `tags`, `media`, `root`,
`extensions`, `processors`, `number_of_files`, `save_file` — unchanged, but
the fields assigned before the failing read (`name`, `description`, `path`)
have already been overwritten from the document. -/
theorem claim_C6_amended_failed_load (fs : FS) (p : Project) (doc : SaveDoc)
    (pathv : String) (hpath : doc.path = some pathv)
    (htags : doc.tags = none) :
    (p.loadDoc fs doc).2 = false ∧
    (p.loadDoc fs doc).1.tags = p.tags ∧
    (p.loadDoc fs doc).1.media = p.media ∧
    (p.loadDoc fs doc).1.root = p.root ∧
    (p.loadDoc fs doc).1.extensions = p.extensions ∧
    (p.loadDoc fs doc).1.processors = p.processors ∧
    (p.loadDoc fs doc).1.number_of_files = p.number_of_files ∧
    (p.loadDoc fs doc).1.save_file = p.save_file ∧
    (p.loadDoc fs doc).1.name = doc.name.getD "" ∧
    (p.loadDoc fs doc).1.description = doc.description.getD "" ∧
    (p.loadDoc fs doc).1.path = pathv := by
  simp [Project.loadDoc, hpath, htags]

theorem Media.ofDict_to_dict (m : Media) : Media.ofDict (Media.to_dict m) = m := by
  cases m
  rfl

theorem media_export_roundtrip (d : Dict Media) :
    (d.map (fun e => (e.1, e.2.to_dict))).map
      (fun e => (e.1, Media.ofDict e.2)) = d := by
  rw [List.map_map]
  have hcomp : ((fun (e : String × MediaDict) => (e.1, Media.ofDict e.2)) ∘
      (fun (e : String × Media) => (e.1, e.2.to_dict))) = fun e => e := by
    funext e
    cases e with
    | mk k m =>
      simp [Function.comp, Media.ofDict_to_dict]
  rw [hcomp, List.map_id']

theorem loadDoc_full (fs : FS) (q : Project) (pathv namev descv : String)
    (tagPairs : List (String × TagType))
    (mediaPairs : List (String × MediaDict)) (rootState : Directory)
    (procs : List ProcDesc) :
    q.loadDoc fs
      { version := some 1, path := some pathv, name := some namev,
        description := some descv, tags := some tagPairs,
        media := some mediaPairs, root := some rootState,
        processors := some procs } =
      (Project.scan fs
        { q with
          name := namev
          description := descv
          path := pathv
          tags := tagPairs.map (fun (x : String × TagType) =>
            TagInfo.of x.1 x.2)
          processors := procs.map processorLoad
          media := Dict.ofList (mediaPairs.map
            (fun e => (e.1, Media.ofDict e.2)))
          extensions := (Directory.setstate rootState).extensions
          root := some (Directory.setstate rootState)
          number_of_files := (Dict.ofList (mediaPairs.map
            (fun e => (e.1, Media.ofDict e.2)))).length },
       true) :=
  rfl

/-- **C5.**  `save_as` followed by `load` of the written document (into any
project) succeeds and reproduces the tag schema — same names and types in
the same order, each default re-derived from its type — and the identical
`media` mapping, provided the saved project was in its scanned state (root
matching its path, every reachable file present in `media`). -/
theorem claim_C5_save_load_roundtrip (fs : FS) (p q : Project)
    (r0 : Directory) (doc : SaveDoc)
    (hroot : p.root = some r0)
    (hmatch : fs.realpath r0.path = fs.realpath (fs.normPath p.path))
    (hcover : ∀ f ∈ r0.allFiles, (Dict.lookup p.media f.relpath).isSome)
    (hnodup : (Dict.keys p.media).Nodup)
    (hdoc : p.save_as = some doc) :
    (q.loadDoc fs doc).2 = true ∧
    ((q.loadDoc fs doc).1.tags.map (fun t => (t.name, t.type)) =
      p.tags.map (fun t => (t.name, t.type))) ∧
    (∀ t ∈ (q.loadDoc fs doc).1.tags, t.default = t.type.defaultValue) ∧
    (q.loadDoc fs doc).1.media = p.media := by
  rw [Project.save_as, hroot, Option.map_some'] at hdoc
  obtain rfl := (Option.some.inj hdoc).symm
  rw [loadDoc_full]
  have hmedia : Dict.ofList (((p.media.map (fun e => (e.1, e.2.to_dict)))).map
      (fun e => (e.1, Media.ofDict e.2))) = p.media := by
    rw [media_export_roundtrip]
    exact Dict.ofList_eq_self hnodup
  set p6 : Project :=
    { q with
      name := p.name
      description := p.description
      path := p.path
      tags := (p.tags.map (fun t => (t.name, t.type))).map
        (fun (x : String × TagType) => TagInfo.of x.1 x.2)
      processors := (p.processors.map processorDump).map processorLoad
      media := Dict.ofList ((p.media.map (fun e => (e.1, e.2.to_dict))).map
        (fun e => (e.1, Media.ofDict e.2)))
      extensions := (Directory.setstate (Directory.getstate r0)).extensions
      root := some (Directory.setstate (Directory.getstate r0))
      number_of_files := (Dict.ofList ((p.media.map
        (fun e => (e.1, e.2.to_dict))).map
        (fun e => (e.1, Media.ofDict e.2)))).length } with hp6
  have hp6root : p6.root = some r0 := rfl
  have hp6path : p6.path = p.path := rfl
  have hp6media : p6.media = p.media := hmedia
  have hsr6 : p6.setupRoot fs = r0 := by
    apply setupRoot_of_match fs p6 r0 hp6root
    rw [hp6path]
    exact hmatch
  have hmissed : missedPairs p6.media (defaultTagsDict p6.tags)
      r0.allFiles = [] := by
    rw [missedPairs, List.filter_eq_nil_iff.2, List.map_nil]
    intro f hf
    rw [hp6media]
    have := hcover f hf
    cases hl : Dict.lookup p.media f.relpath with
    | none => rw [hl] at this; simp at this
    | some m => simp
  have hqnm : p6.scanNewMedia fs = [] := by
    rw [scanNewMedia_eq, hsr6, hmissed]
    rfl
  refine ⟨rfl, ?_, ?_, ?_⟩
  · rw [scan_tags_eq]
    show ((p.tags.map (fun t => (t.name, t.type))).map
      (fun (x : String × TagType) => TagInfo.of x.1 x.2)).map
      (fun t => (t.name, t.type)) = p.tags.map (fun t => (t.name, t.type))
    rw [List.map_map, List.map_map]
    rfl
  · intro t ht
    rw [scan_tags_eq] at ht
    have ht' : t ∈ (p.tags.map (fun t => (t.name, t.type))).map
        (fun (x : String × TagType) => TagInfo.of x.1 x.2) := ht
    obtain ⟨x, _, rfl⟩ := List.mem_map.1 ht'
    rfl
  · rw [scan_media_of_nil fs p6 hqnm]
    exact hp6media

/-! ## Facts about the save-file naming policy -/

theorem string_mk_data (s : String) : String.mk s.data = s := by
  cases s
  rfl

theorem sanitize_name_wordchars (s : String) :
    ∀ c ∈ (sanitize_name s).data, isWordChar c = true := by
  intro c hc
  have : c ∈ (collapseWhitespace (s.data.map Char.toLower)).filter
      isWordChar := hc
  exact List.of_mem_filter this

theorem wordchar_ne_slash {c : Char} (h : isWordChar c = true) : c ≠ '/' := by
  intro hc
  subst hc
  simp [isWordChar] at h

theorem wordchar_ne_dot {c : Char} (h : isWordChar c = true) : c ≠ '.' := by
  intro hc
  subst hc
  simp [isWordChar] at h

theorem takeWhile_append_slash {l m : List Char}
    (h : ∀ c ∈ l, c ≠ '/') :
    (l ++ '/' :: m).takeWhile (fun c => c ≠ '/') = l := by
  induction l with
  | nil => simp [List.takeWhile]
  | cons c cs ih =>
    rw [List.cons_append, List.takeWhile_cons]
    rw [if_pos (by simp [h c (List.mem_cons_self _ _)]),
      ih (fun x hx => h x (List.mem_cons_of_mem _ hx))]

theorem dropWhile_append_slash {l m : List Char}
    (h : ∀ c ∈ l, c ≠ '/') :
    (l ++ '/' :: m).dropWhile (fun c => c ≠ '/') = '/' :: m := by
  induction l with
  | nil => simp [List.dropWhile]
  | cons c cs ih =>
    rw [List.cons_append, List.dropWhile_cons]
    rw [if_pos (by simp [h c (List.mem_cons_self _ _)]),
      ih (fun x hx => h x (List.mem_cons_of_mem _ hx))]

theorem takeWhile_all {l : List Char} (h : ∀ c ∈ l, c ≠ '/') :
    l.takeWhile (fun c => c ≠ '/') = l := by
  induction l with
  | nil => rfl
  | cons c cs ih =>
    rw [List.takeWhile_cons, if_pos (by simp [h c (List.mem_cons_self _ _)]),
      ih (fun x hx => h x (List.mem_cons_of_mem _ hx))]

theorem dropWhile_all {l : List Char} (h : ∀ c ∈ l, c ≠ '/') :
    l.dropWhile (fun c => c ≠ '/') = [] := by
  induction l with
  | nil => rfl
  | cons c cs ih =>
    rw [List.dropWhile_cons, if_pos (by simp [h c (List.mem_cons_self _ _)]),
      ih (fun x hx => h x (List.mem_cons_of_mem _ hx))]

theorem basename_pathJoin (d f : String)
    (hf : ∀ c ∈ f.data, c ≠ '/') (hne : f.data ≠ []) :
    basename (pathJoin d f) = f := by
  have hfr : ∀ c ∈ f.data.reverse, c ≠ '/' := by
    intro c hc
    exact hf c (List.mem_reverse.1 hc)
  have hnabs : ¬ f.data.head? = some '/' := by
    cases hd : f.data with
    | nil => simp [hd] at hne
    | cons c cs =>
      simp only [hd, List.head?_cons, Option.some.injEq]
      exact hf c (by rw [hd]; exact List.mem_cons_self _ _)
  rw [pathJoin, if_neg hnabs]
  by_cases hd : d.data = [] ∨ d.data.getLast? = some '/'
  · rw [if_pos hd, basename]
    show String.mk ((d.data ++ f.data).reverse.takeWhile
      (fun c => c ≠ '/')).reverse = f
    rcases hd with hd | hd
    · rw [hd, List.nil_append, takeWhile_all hfr, List.reverse_reverse,
        string_mk_data]
    · have hdr : d.data.reverse.head? = some '/' := by
        rw [List.head?_reverse]
        exact hd
      cases hrev : d.data.reverse with
      | nil => rw [hrev] at hdr; exact Option.noConfusion hdr
      | cons c cs =>
        rw [hrev] at hdr
        have hc : c = '/' := Option.some.inj hdr
        rw [List.reverse_append, hrev, hc, takeWhile_append_slash hfr,
          List.reverse_reverse, string_mk_data]
  · rw [if_neg hd, basename]
    show String.mk ((d.data ++ '/' :: f.data).reverse.takeWhile
      (fun c => c ≠ '/')).reverse = f
    rw [List.reverse_append, List.reverse_cons, List.append_assoc,
      List.singleton_append, takeWhile_append_slash hfr,
      List.reverse_reverse, string_mk_data]

theorem dirname_pathJoin (d f : String)
    (hdl : ¬ d.data.getLast? = some '/')
    (hf : ∀ c ∈ f.data, c ≠ '/') (hne : f.data ≠ []) :
    dirname (pathJoin d f) = d := by
  have hfr : ∀ c ∈ f.data.reverse, c ≠ '/' := by
    intro c hc
    exact hf c (List.mem_reverse.1 hc)
  have hnabs : ¬ f.data.head? = some '/' := by
    cases hd : f.data with
    | nil => simp [hd] at hne
    | cons c cs =>
      simp only [hd, List.head?_cons, Option.some.injEq]
      exact hf c (by rw [hd]; exact List.mem_cons_self _ _)
  rw [pathJoin, if_neg hnabs]
  by_cases hd : d.data = []
  · rw [if_pos (Or.inl hd), hd, List.nil_append, dirname, string_mk_data,
      dropWhile_all hfr, dirnameAux]
    simp only [List.isEmpty_nil, if_true]
    cases d with
    | mk l =>
      simp only [String.data] at hd
      rw [hd]
  · rw [if_neg (by
      rintro (hc | hc)
      · exact hd hc
      · exact hdl hc), dirname, string_mk_data, List.reverse_append,
      List.reverse_cons, List.append_assoc, List.singleton_append,
      dropWhile_append_slash hfr, dirnameAux]
    have hdr : ¬ d.data.reverse.head? = some '/' := by
      rw [List.head?_reverse]
      exact hdl
    cases hrev : d.data.reverse with
    | nil =>
      exact absurd (by rw [← List.reverse_eq_nil_iff]; exact hrev) hd
    | cons c cs =>
      have hcne : ¬ c = '/' := by
        intro hc
        rw [hrev, hc] at hdr
        exact hdr rfl
      have hall : ¬ ('/' :: c :: cs).all (fun x => x = '/') = true := by
        simp only [List.all_cons, Bool.and_eq_true, decide_eq_true_eq]
        rintro ⟨-, hc, -⟩
        exact hcne hc
      rw [if_neg (by simp), if_neg hall, List.dropWhile_cons,
        if_pos (by simp), List.dropWhile_cons, if_neg (by simp [hcne]),
        ← hrev, List.reverse_reverse, string_mk_data]

theorem splitextRev_eq (e : List Char) (he : ∀ c ∈ e, c ≠ '.')
    (rest : List Char) (hany : rest.any (fun c' => c' ≠ '.') = true) :
    splitextRev (e ++ '.' :: rest) = some (e ++ ['.'], rest) := by
  induction e with
  | nil =>
    rw [List.nil_append, splitextRev, if_pos rfl, if_pos hany]
    rfl
  | cons c cs ih =>
    rw [List.cons_append, splitextRev,
      if_neg (he c (List.mem_cons_self _ _)),
      ih (fun x hx => he x (List.mem_cons_of_mem _ hx))]
    rfl

theorem splitextFilename_append_ext (s : String)
    (hword : ∀ c ∈ s.data, isWordChar c = true) (hne : s.data ≠ []) :
    splitextFilename (s ++ ".vxn") = (s, ".vxn") := by
  have hdata : (s ++ ".vxn").data = s.data ++ ['.', 'v', 'x', 'n'] := by
    rw [String.data_append]
  have hany : s.data.reverse.any (fun c' => c' ≠ '.') = true := by
    rw [List.any_eq_true]
    cases hc : s.data with
    | nil => exact absurd hc hne
    | cons c cs =>
      refine ⟨c, ?_, ?_⟩
      · rw [List.mem_reverse]
        exact List.mem_cons_self _ _
      · have := hword c (by rw [hc]; exact List.mem_cons_self _ _)
        simp [wordchar_ne_dot this]
  have hrev : (s.data ++ ['.', 'v', 'x', 'n']).reverse =
      ['n', 'x', 'v'] ++ '.' :: s.data.reverse := by
    rw [List.reverse_append]
    rfl
  have hstep := splitextRev_eq ['n', 'x', 'v'] (by decide) s.data.reverse hany
  rw [splitextFilename, hdata, hrev, hstep]
  show (String.mk s.data.reverse.reverse, String.mk _) = (s, ".vxn")
  rw [List.reverse_reverse, string_mk_data]
  rfl

theorem sanitize_data_not_slash (s : String) :
    ∀ c ∈ (sanitize_name s).data, c ≠ '/' :=
  fun c hc => wordchar_ne_slash (sanitize_name_wordchars s c hc)

theorem vxn_data (s : String) :
    (s ++ ".vxn").data = s.data ++ ['.', 'v', 'x', 'n'] := by
  rw [String.data_append]

theorem vxn_not_slash (s : String) (hs : ∀ c ∈ s.data, c ≠ '/') :
    ∀ c ∈ (s ++ ".vxn").data, c ≠ '/' := by
  intro c hc
  rw [vxn_data] at hc
  rcases List.mem_append.1 hc with h | h
  · exact hs c h
  · intro hcs
    subst hcs
    simp at h

theorem vxn_ne_nil (s : String) : (s ++ ".vxn").data ≠ [] := by
  rw [vxn_data]
  simp

theorem get_non_existing_spec (fs : FS) (d s : String)
    (hword : ∀ c ∈ s.data, isWordChar c = true) (hne : s.data ≠ [])
    (hdl : ¬ d.data.getLast? = some '/') :
    get_non_existing_filename fs (pathJoin d (s ++ ".vxn")) =
      if fs.pathExists (pathJoin d (s ++ ".vxn"))
      then pathJoin d (s ++ "_a" ++ ".vxn")
      else pathJoin d (s ++ ".vxn") := by
  have hslash : ∀ c ∈ (s ++ ".vxn").data, c ≠ '/' :=
    vxn_not_slash s (fun c hc => wordchar_ne_slash (hword c hc))
  by_cases hex : fs.pathExists (pathJoin d (s ++ ".vxn")) = true
  · rw [get_non_existing_filename, if_pos hex, if_pos hex]
    rw [basename_pathJoin d (s ++ ".vxn") hslash (vxn_ne_nil s)]
    rw [dirname_pathJoin d (s ++ ".vxn") hdl hslash (vxn_ne_nil s)]
    rw [splitextFilename_append_ext s hword hne]
  · rw [get_non_existing_filename, if_neg hex, if_neg hex]

/-- **C9 (amended).**  With no explicit save file, the derived `save_file`
for a non-empty name is the sanitized name with the `.vxn` suffix in the
per-user catalog directory, with `_a` inserted before the extension when
that filename is taken.  Renaming to a non-empty name whose derived path
(sanitized name + `.vxn` in the current save-file's directory) differs from
the current `save_file` repoints `save_file` there and moves the old file
when it exists; renaming such that the derived path equals the current
`save_file` changes nothing.  (The claim's form — that any rename to an
equivalent *sanitized name* is a no-op — fails when the current save file
carries a collision suffix; see the counterexample.) -/
theorem claim_C9_amended_naming_policy (fs : FS) (p : Project)
    (name' : String) (hname : p.name.length > 0) (hname' : name'.length > 0)
    (hsan : (sanitize_name p.name).data ≠ [])
    (hdirp : ¬ fs.projectDir.data.getLast? = some '/') :
    (Project.save_file_default fs p =
      if fs.pathExists (pathJoin fs.projectDir (sanitize_name p.name ++ ".vxn"))
      then pathJoin fs.projectDir (sanitize_name p.name ++ "_a" ++ ".vxn")
      else pathJoin fs.projectDir (sanitize_name p.name ++ ".vxn")) ∧
    (pathJoin (dirname p.save_file) (sanitize_name name' ++ ".vxn") ≠
        p.save_file →
      (p.name_changed fs name').1.save_file =
        pathJoin (dirname p.save_file) (sanitize_name name' ++ ".vxn") ∧
      (p.name_changed fs name').1.name = name' ∧
      (p.name_changed fs name').2 =
        (if fs.pathExists p.save_file then
          [(p.save_file,
            pathJoin (dirname p.save_file) (sanitize_name name' ++ ".vxn"))]
         else [])) ∧
    (pathJoin (dirname p.save_file) (sanitize_name name' ++ ".vxn") =
        p.save_file →
      p.name_changed fs name' = ({ p with name := name' }, [])) := by
  refine ⟨?_, ?_, ?_⟩
  · rw [Project.save_file_default, if_pos hname]
    exact get_non_existing_spec fs fs.projectDir (sanitize_name p.name)
      (sanitize_name_wordchars p.name) hsan hdirp
  · intro hne
    rw [Project.name_changed]
    rw [if_pos hname', if_pos hne]
    exact ⟨rfl, rfl, rfl⟩
  · intro heq
    rw [Project.name_changed, if_pos hname', if_neg (by
      rw [heq]
      exact fun hc => hc rfl)]

/-- A filesystem on which `foo.vxn` and `foo_a.vxn` exist in the catalog
directory. -/
def fsC9 : FS :=
  { fsId with pathExists := fun s =>
      s == "/home/user/.vixen/foo.vxn" || s == "/home/user/.vixen/foo_a.vxn" }

/-- A project named `"Foo"` whose save file carries the collision suffix. -/
def projC9 : Project :=
  { Project.new with
    name := "Foo"
    save_file := "/home/user/.vixen/foo_a.vxn" }

/-- **C9 (counterexample).**  With `foo.vxn` already taken, the derived save
file for a project named `"Foo"` is `foo_a.vxn`; renaming the project to
`"FOO"` — an equivalent sanitized name — is then not a no-op, contradicting
the claim: the handler recomputes the path without the collision suffix,
repoints `save_file` and moves the file on disk. -/
theorem claim_C9_counterexample :
    sanitize_name "FOO" = sanitize_name "Foo" ∧
    Project.save_file_default fsC9 { Project.new with name := "Foo" } =
      "/home/user/.vixen/foo_a.vxn" ∧
    (projC9.name_changed fsC9 "FOO").1.save_file ≠ projC9.save_file ∧
    (projC9.name_changed fsC9 "FOO").2 =
      [("/home/user/.vixen/foo_a.vxn", "/home/user/.vixen/foo.vxn")] := by
  refine ⟨by decide, by decide, by decide, by decide⟩

/-! ## Concrete instantiations -/

/-- One concrete file entry. -/
def fileW : FileEntry :=
  { path := "/data/a.png", name := "a.png", relpath := "a.png",
    media := none }

/-- A one-file directory tree. -/
def dirW : Directory := .node "/data" "data" "" [] [fileW] []

/-- The record for `fileW` with the default schema's tag mapping. -/
def mediaW : Media :=
  { path := "/data/a.png", tags := [("completed", TagValue.bool false)] }

/-- A scanned one-file project. -/
def projW : Project :=
  { Project.new with
    path := "/data"
    root := some dirW
    media := [("a.png", mediaW)] }

/-- The spec's example migration target: `[{completed: bool}, {rating: int}]`. -/
def newTagsW : List TagInfo :=
  [TagInfo.of "completed" TagType.bool, TagInfo.of "rating" TagType.int]

theorem claim_C1_witness :
    ((tagNames projW.tags).Nodup ∧ (tagNames newTagsW).Nodup ∧
      (∀ e ∈ projW.media,
        (Dict.keys (e.2).tags).Perm (tagNames projW.tags))) ∧
    ∃ p', projW.update_tags newTagsW = some p' ∧ p'.tags = newTagsW := by
  refine ⟨⟨by decide, by decide, by decide⟩, ?_⟩
  obtain ⟨p', h1, h2, -⟩ :=
    claim_C1_update_tags projW newTagsW (by decide) (by decide) (by decide)
  exact ⟨p', h1, h2⟩

theorem claim_C2_witness :
    (projW.root = some dirW ∧
     fsId.realpath dirW.path = fsId.realpath (fsId.normPath projW.path) ∧
     (dirW.allFiles.map FileEntry.relpath).Nodup) ∧
    (projW.scan fsId).scan fsId = projW.scan fsId := by
  refine ⟨⟨rfl, rfl, by decide⟩, ?_⟩
  exact (claim_C2_scan_preserves_and_idempotent fsId projW dirW rfl rfl
    (by decide)).2

theorem claim_C3_witness :
    (projW.root = some dirW ∧
     fsId.realpath dirW.path = fsId.realpath (fsId.normPath projW.path) ∧
     (dirW.allFiles.map FileEntry.relpath).Nodup ∧
     (tagNames projW.tags).Nodup) ∧
    ∃ r', (projW.scan fsId).root = some r' ∧
      ∀ f ∈ r'.allFiles,
        f.media = Dict.lookup (projW.scan fsId).media f.relpath := by
  refine ⟨⟨rfl, rfl, by decide, by decide⟩, ?_⟩
  obtain ⟨r', h1, h2, -⟩ :=
    claim_C3_scan_links_and_seeds fsId projW dirW rfl rfl (by decide)
      (by decide)
  exact ⟨r', h1, h2⟩

theorem claim_C5_witness :
    (projW.root = some dirW ∧
     fsId.realpath dirW.path = fsId.realpath (fsId.normPath projW.path) ∧
     (∀ f ∈ dirW.allFiles, (Dict.lookup projW.media f.relpath).isSome) ∧
     (Dict.keys projW.media).Nodup) ∧
    ∃ doc, projW.save_as = some doc ∧
      (Project.new.loadDoc fsId doc).2 = true ∧
      (Project.new.loadDoc fsId doc).1.media = projW.media := by
  refine ⟨⟨rfl, rfl, by decide, by decide⟩, ?_⟩
  refine ⟨_, rfl, ?_, ?_⟩
  · exact (claim_C5_save_load_roundtrip fsId projW Project.new dirW _ rfl rfl
      (by decide) (by decide) rfl).1
  · exact (claim_C5_save_load_roundtrip fsId projW Project.new dirW _ rfl rfl
      (by decide) (by decide) rfl).2.2.2

theorem claim_C6_witness :
    (docC6.path = some "/data" ∧ docC6.tags = none) ∧
    (projC6.loadDoc fsId docC6).2 = false ∧
    (projC6.loadDoc fsId docC6).1.tags = projC6.tags := by
  refine ⟨⟨rfl, rfl⟩, ?_, ?_⟩
  · exact (claim_C6_amended_failed_load fsId projC6 docC6 "/data" rfl rfl).1
  · exact (claim_C6_amended_failed_load fsId projC6 docC6 "/data" rfl rfl).2.1

theorem claim_C7_witness :
    projW.root = some dirW ∧
    (projW.save_file = "" →
      projW.save fsId = (.error "No valid save file set.", [])) :=
  ⟨rfl, (claim_C7_save fsId projW dirW rfl).1⟩

theorem claim_C8_witness :
    fsId.pathExists projW.save_file = false ∧
    projW.load fsId none = (projW, true) :=
  ⟨rfl, claim_C8_load_noop fsId projW rfl⟩

theorem claim_C9_witness :
    (projC9.name.length > 0 ∧ ("Bar" : String).length > 0 ∧
     (sanitize_name projC9.name).data ≠ [] ∧
     ¬ fsC9.projectDir.data.getLast? = some '/') ∧
    Project.save_file_default fsC9 projC9 =
      (if fsC9.pathExists
          (pathJoin fsC9.projectDir (sanitize_name projC9.name ++ ".vxn"))
       then pathJoin fsC9.projectDir
         (sanitize_name projC9.name ++ "_a" ++ ".vxn")
       else pathJoin fsC9.projectDir
         (sanitize_name projC9.name ++ ".vxn")) := by
  refine ⟨⟨by decide, by decide, by decide, by decide⟩, ?_⟩
  exact (claim_C9_amended_naming_policy fsC9 projC9 "Bar" (by decide)
    (by decide) (by decide) (by decide)).1
